import Mathlib

/-!
# Verification of the Wonderland-Mayhem link-rewrite / media-reupload pipeline

This file gives a shallow embedding, in Lean 4, of the link-fixing pipeline of
`src/bot.py` (the Cheshire Discord bot): the URL scanner (`URL_REGEX` together
with `re.finditer`/`re.sub` scanning), the host extractor `_extract_host`, the
domain rewriter `_swap_domain`, the message rewriter
`_fix_message_content_for_links`, the webhook impersonation layer
(`_get_or_create_webhook`, `_send_via_webhook_or_fallback`), the media
download/reupload path (`_download_media_file`, `_reupload_instaface_media`),
and the `on_message` event handler that glues them together.

Message text is modelled as `List Char`.  Python `str.lower` is modelled on its
ASCII fragment (`Char.toLower`); Python's `\s` character class is modelled on
its ASCII fragment as well.  Effectful Discord/yt-dlp/filesystem calls are
modelled by explicit oracle inputs describing the outcome of each external
call, and the handler produces an explicit list of outgoing actions plus a
final filesystem state, so that every claim about "what the pipeline sends or
deletes" becomes a statement about that action trace.
-/

namespace Cheshire

/-! ## Basic string helpers (Python primitives used by bot.py) -/

/-- Python `str.lower`, restricted to its ASCII behaviour: lower-case each
character. -/
def lowerStr (s : List Char) : List Char := s.map Char.toLower

/-- The suffix of `s` after the first occurrence of the (non-empty) separator
`sep`; `none` when `sep` does not occur.  This models Python
`s.split(sep, 1)[1]`, where the `[1]` raises `IndexError` (→ `none`) when
`sep` does not occur in `s`. -/
def afterFirst (sep : List Char) : List Char → Option (List Char)
  | [] => if sep.isPrefixOf ([] : List Char) then some (([] : List Char).drop sep.length) else none
  | c :: cs =>
    if sep.isPrefixOf (c :: cs) then some ((c :: cs).drop sep.length)
    else afterFirst sep cs

/-- Python substring containment `needle in hay` (for strings): `true` iff
`needle` occurs contiguously inside `hay`. -/
def containsSub (needle : List Char) : List Char → Bool
  | [] => needle.isPrefixOf ([] : List Char)
  | c :: cs => needle.isPrefixOf (c :: cs) || containsSub needle cs

/-- Python `s.replace(old, new, 1)`: replace the first occurrence of `old` in
`s` by `new`; `s` unchanged when `old` does not occur. -/
def replaceFirst (old new : List Char) : List Char → List Char
  | [] => if old.isPrefixOf ([] : List Char) then new ++ (([] : List Char).drop old.length) else []
  | c :: cs =>
    if old.isPrefixOf (c :: cs) then new ++ ((c :: cs).drop old.length)
    else c :: replaceFirst old new cs

/-! ## Domain tables (src/bot.py lines 104–134) -/

def TWITTER_DOMAINS : List (List Char) :=
  ["twitter.com".toList, "www.twitter.com".toList, "mobile.twitter.com".toList]

def X_DOMAINS : List (List Char) :=
  ["x.com".toList, "www.x.com".toList, "mobile.x.com".toList]

def REDDIT_DOMAINS : List (List Char) :=
  ["reddit.com".toList, "www.reddit.com".toList, "old.reddit.com".toList,
   "new.reddit.com".toList, "redd.it".toList]

def INSTAGRAM_DOMAINS : List (List Char) :=
  ["instagram.com".toList, "www.instagram.com".toList, "m.instagram.com".toList]

def FACEBOOK_DOMAINS : List (List Char) :=
  ["facebook.com".toList, "www.facebook.com".toList, "m.facebook.com".toList]

/-- Domains the bot won't touch (already "fixed" or proxies). -/
def SKIP_DOMAINS : List (List Char) :=
  ["fxtwitter.com".toList, "vxtwitter.com".toList, "fixupx.com".toList, "fixvx.com".toList,
   "rxddit.com".toList, "vxreddit.com".toList, "rxyddit.com".toList, "redditez.com".toList]

/-! ## Host extraction and classification (src/bot.py lines 140–156) -/

/-- The raw host of a URL, as written: the substring between the first `://`
and the first following `/` (src/bot.py lines 142–143, before the
`.lower()`). -/
def raw_host (url : List Char) : Option (List Char) :=
  match afterFirst "://".toList url with
  | none => none
  | some after_scheme => some (after_scheme.takeWhile (fun c => c != '/'))

/-- `_extract_host` (src/bot.py lines 140–146): the part between `://` and the
next `/`, lower-cased; `none` when the URL has no `://` (the `IndexError` is
caught and `None` returned). -/
def extract_host (url : List Char) : Option (List Char) :=
  match raw_host url with
  | none => none
  | some host => some (lowerStr host)

/-- `_is_instagram` (src/bot.py lines 149–151).  Note Python's
`host in INSTAGRAM_DOMAINS if host else False`: an empty host is falsy. -/
def is_instagram (url : List Char) : Bool :=
  match extract_host url with
  | some host => if !host.isEmpty then INSTAGRAM_DOMAINS.contains host else false
  | none => false

/-- `_is_facebook` (src/bot.py lines 154–156). -/
def is_facebook (url : List Char) : Bool :=
  match extract_host url with
  | some host => if !host.isEmpty then FACEBOOK_DOMAINS.contains host else false
  | none => false

/-! ## The domain rewriter `_swap_domain` (src/bot.py lines 159–187) -/

/-- Whether the lower-cased URL contains some skip-list domain as a substring
(`any(d in lowered for d in SKIP_DOMAINS)`, line 168). -/
def hits_skip_list (url : List Char) : Bool :=
  SKIP_DOMAINS.any (fun d => containsSub d (lowerStr url))

/-- `_swap_domain` (src/bot.py lines 159–187).  Note the Python guard
`if not host: return url` catches both `None` and the empty string. -/
def swap_domain (url : List Char) : List Char :=
  if hits_skip_list url then url
  else
    match extract_host url with
    | none => url
    | some host =>
      if host.isEmpty then url
      else if TWITTER_DOMAINS.contains host then replaceFirst host "fxtwitter.com".toList url
      else if X_DOMAINS.contains host then replaceFirst host "fixupx.com".toList url
      else if REDDIT_DOMAINS.contains host then replaceFirst host "rxddit.com".toList url
      else url

/-! ## The URL scanner: `URL_REGEX = (?<!<)(https?://[^\s>]+)` with
`re.finditer` / `re.sub` scanning (src/bot.py lines 136–137, 190–209, 457–459)

The regex engine scans the text left to right.  At each position it attempts a
match: the lookbehind `(?<!<)` requires the character immediately before the
position not to be `<`; `https?://` requires the literal prefix `http://` or
`https://`; `[^\s>]+` then greedily consumes at least one character that is
neither whitespace nor `>`.  On success the match is yielded and scanning
resumes at the first position after the match; on failure scanning advances by
one character.  `re.sub` performs the same scan, replacing each match by the
result of the replacement callback.  Python's `\s` is modelled by its ASCII
fragment. -/

/-- ASCII fragment of Python's `\s` class. -/
def isSpaceChar (c : Char) : Bool :=
  c == ' ' || c == '\t' || c == '\n' || c == '\r' || c == '\x0b' || c == '\x0c'

/-- A character ending the `[^\s>]+` run: whitespace or `>`. -/
def isStopChar (c : Char) : Bool := c == '>' || isSpaceChar c

def httpScheme : List Char := "http://".toList

def httpsScheme : List Char := "https://".toList

/-- Length of the scheme literal matched by `https?://` at the head of `cs`
(the optional `s` is tried greedily first; at most one alternative can
match). -/
def schemeAt (cs : List Char) : Option Nat :=
  if httpsScheme.isPrefixOf cs then some httpsScheme.length
  else if httpScheme.isPrefixOf cs then some httpScheme.length
  else none

/-- One match attempt of `URL_REGEX` at the head of `cs`, where `prevLt` says
whether the character immediately before this position in the whole text is
`<`.  Returns the matched URL (scheme plus the maximal non-empty run of
non-stop characters), or `none`. -/
def urlMatchAt (prevLt : Bool) (cs : List Char) : Option (List Char) :=
  if prevLt then none
  else
    match schemeAt cs with
    | none => none
    | some n =>
      let body := (cs.drop n).takeWhile (fun c => !isStopChar c)
      if body.isEmpty then none else some (cs.take n ++ body)

/-- The scanning loop shared by `re.finditer` and `re.sub`: the text is cut
into pieces, each piece either a single unmatched character (`Sum.inl`) or a
whole match (`Sum.inr`).  `fuel` is an upper bound on the number of characters
left (the loop consumes at least one character per step); `scanPieces` is
invoked with `fuel = cs.length`, which is always sufficient. -/
def scanPieces : Nat → Bool → List Char → List (Char ⊕ List Char)
  | 0, _, _ => []
  | _ + 1, _, [] => []
  | fuel + 1, prevLt, c :: cs =>
    match urlMatchAt prevLt (c :: cs) with
    | some url =>
      Sum.inr url ::
        scanPieces fuel (url.getLast? == some '<') ((c :: cs).drop url.length)
    | none => Sum.inl c :: scanPieces fuel (c == '<') cs

/-- `[m.group(1) for m in URL_REGEX.finditer(content)]` (src/bot.py line
458): the list of matched URLs, in order of appearance. -/
def scanUrls (content : List Char) : List (List Char) :=
  (scanPieces content.length false content).filterMap
    (fun p => match p with | Sum.inl _ => none | Sum.inr u => some u)

/-- `URL_REGEX.sub(repl, content)`: unmatched characters are kept, each match
is replaced by `repl` applied to it. -/
def subUrls (repl : List Char → List Char) (content : List Char) : List Char :=
  (scanPieces content.length false content).flatMap
    (fun p => match p with | Sum.inl c => [c] | Sum.inr u => repl u)

/-- The replacement callback `repl` of `_fix_message_content_for_links`
(src/bot.py lines 197–206): Instagram/Facebook URLs are returned untouched
(handled separately); everything else goes through `_swap_domain`. -/
def fix_repl (url : List Char) : List Char :=
  if is_instagram url || is_facebook url then url else swap_domain url

/-- `_fix_message_content_for_links` (src/bot.py lines 190–209): the rewritten
content, and the `changed` flag, which the callback sets exactly when some
match's replacement `new_url = _swap_domain(url)` differs from the match. -/
def fix_message_content_for_links (content : List Char) : List Char × Bool :=
  (subUrls fix_repl content,
   (scanUrls content).any (fun u => fix_repl u != u))

/-! ## Channel model (src/bot.py lines 212–221, 411–465)

`_effective_linkfix_id`: a `TextChannel` contributes its own id, a `Thread`
its parent channel's id, anything else `None`. -/

inductive ChannelKind where
  | text (id : Nat)
  | thread (parentId : Nat)
  | other
deriving DecidableEq

/-- `_effective_linkfix_id` (src/bot.py lines 212–221). -/
def effective_linkfix_id : ChannelKind → Option Nat
  | .text id => some id
  | .thread pid => some pid
  | .other => none

/-- `LINKFIX_CHANNEL_IDS` (src/config.py lines 64–69): music-n-media,
forbidden-door, sussy-humour, shitposting. -/
def LINKFIX_CHANNEL_IDS : List Nat :=
  [1255281446697042061, 1254679880482820157, 1254688995221176365, 1251693839962607675]

/-! ## Discord send model: allowed mentions, webhooks, send outcomes -/

/-- `discord.AllowedMentions`, restricted to the three ping classes the spec
talks about. -/
structure AllowedMentions where
  users : Bool
  roles : Bool
  everyone : Bool
deriving DecidableEq

/-- `discord.AllowedMentions.none()`. -/
def AllowedMentions.noPings : AllowedMentions := ⟨false, false, false⟩

/-- `discord.AllowedMentions.all()`. -/
def AllowedMentions.allPings : AllowedMentions := ⟨true, true, true⟩

/-- A webhook as seen by `_get_or_create_webhook`: whether `wh.user` is set,
whether that user is a bot (`wh.user.bot`), and the owner's id (used only to
*state* "owned by the bot itself" — the code never compares it). -/
structure Webhook where
  hasUser : Bool
  userIsBot : Bool
  ownerId : Nat
deriving DecidableEq

/-- Outcome of an awaited Discord API call: a value, a `discord.Forbidden`
error, or any other exception. -/
inductive CallResult (α : Type) where
  | ok (a : α)
  | forbidden
  | err
deriving DecidableEq

/-- `_get_or_create_webhook` (src/bot.py lines 224–241): list the channel's
webhooks and return the first whose user is set and is a bot; otherwise create
one.  `discord.Forbidden` and any other exception (from either call) yield
`None`. -/
def get_or_create_webhook (webhooksCall : CallResult (List Webhook))
    (createCall : CallResult Webhook) : Option Webhook :=
  match webhooksCall with
  | .ok hooks =>
    match hooks.find? (fun wh => wh.hasUser && wh.userIsBot) with
    | some wh => some wh
    | none =>
      match createCall with
      | .ok wh => some wh
      | .forbidden => none
      | .err => none
  | .forbidden => none
  | .err => none

/-- Oracle for one `_send_via_webhook_or_fallback` call: the results of the
channel's `webhooks()` / `create_webhook()` calls, and whether the
`webhook.send` / plain `destination.send` call (whichever is reached) would
succeed (`false` = it raises, which the function catches). -/
structure SendEnv where
  webhooksCall : CallResult (List Webhook)
  createCall : CallResult Webhook
  webhookSendOk : Bool
  plainSendOk : Bool
deriving DecidableEq

/-- One outgoing Discord message produced by `_send_via_webhook_or_fallback`:
either a webhook send (impersonating the author) or a plain bot-authored
send.  Records the content and the effective allowed-mentions setting. -/
inductive SendCall where
  | viaWebhook (wh : Webhook) (content : List Char) (mentions : AllowedMentions)
  | viaPlain (content : List Char) (mentions : AllowedMentions)
deriving DecidableEq

def SendCall.mentions : SendCall → AllowedMentions
  | .viaWebhook _ _ m => m
  | .viaPlain _ m => m

def SendCall.content : SendCall → List Char
  | .viaWebhook _ c _ => c
  | .viaPlain c _ => c

/-- `_send_via_webhook_or_fallback` (src/bot.py lines 299–346).  Returns
whether the send succeeded, plus the list of outgoing send calls attempted.
`allowed_mentions or discord.AllowedMentions.none()`: an `AllowedMentions`
object is always truthy, so only a `None` argument is replaced.  A webhook is
looked up only under `perms.manage_webhooks`.  If a webhook is available, the
message goes through it — and if that raises, the exception is caught and the
function returns `False` *without* attempting the plain send.  Only when no
webhook is available does it fall back to a plain `destination.send`. -/
def send_via_webhook_or_fallback (manageWebhooks : Bool) (env : SendEnv)
    (content : List Char) (am? : Option AllowedMentions) : Bool × List SendCall :=
  let am := am?.getD AllowedMentions.noPings
  let webhook : Option Webhook :=
    if manageWebhooks then get_or_create_webhook env.webhooksCall env.createCall
    else none
  match webhook with
  | some wh => (env.webhookSendOk, [SendCall.viaWebhook wh content am])
  | none => (env.plainSendOk, [SendCall.viaPlain content am])

/-! ## Filesystem model for the media download path -/

/-- Temp directories (by numeric id) and files (dir id × file id) currently on
disk. -/
structure FS where
  dirs : List Nat
  files : List (Nat × Nat)
deriving DecidableEq

/-- `tempfile.mkdtemp`: pick a directory name not currently in use. -/
def FS.freshDir (fs : FS) : Nat := fs.dirs.foldr max 0 + 1

/-- `shutil.rmtree(d, ignore_errors=True)`: remove the directory and
everything in it. -/
def FS.rmtree (fs : FS) (d : Nat) : FS :=
  ⟨fs.dirs.erase d, fs.files.filter (fun p => p.1 != d)⟩

/-- `os.remove` of one file (an `OSError` on a missing file is caught by the
caller, so removal of an absent file is a no-op here too). -/
def FS.removeFile (fs : FS) (d f : Nat) : FS :=
  ⟨fs.dirs, fs.files.filter (fun p => p != (d, f))⟩

/-- Outcome of one `yt-dlp` invocation inside `_download_media_file`:
either it raises (→ the function returns `None`), or it returns a filename
`f`, with `exists_` saying whether that file is actually on disk (checked by
the caller via `os.path.exists`). -/
inductive DlResult where
  | fail
  | path (f : Nat) (exists_ : Bool)
deriving DecidableEq

/-- `_download_media_file` (src/bot.py lines 244–296): make a fresh temp
directory, run yt-dlp in it; on failure remove the directory again and return
`none`; on success the artifact `(d, f)` is on disk (when it exists) and its
path is returned. -/
def download_media_file (fs : FS) (dl : DlResult) : Option (Nat × Nat × Bool) × FS :=
  let d := fs.freshDir
  let fs1 : FS := ⟨d :: fs.dirs, fs.files⟩
  match dl with
  | .fail => (none, fs1.rmtree d)
  | .path f ex =>
    let fs2 : FS := if ex then ⟨fs1.dirs, (d, f) :: fs1.files⟩ else fs1
    (some (d, f, ex), fs2)

/-! ## Actions: the externally visible behaviour of `on_message` -/

/-- One externally visible step of the `on_message` pipeline, in order. -/
inductive Action where
  /-- An outgoing repost of a downloaded media file (`_reupload_instaface_media`),
  with the result of the send. -/
  | mediaPost (call : SendCall) (ok : Bool)
  /-- An outgoing repost of the rewritten text, with the result of the send. -/
  | textPost (call : SendCall) (ok : Bool)
  /-- The attempt to delete the original message; `ok = false` means the call
  raised and the exception was swallowed. -/
  | deleteOriginal (ok : Bool)
  /-- `bot.process_commands(message)`. -/
  | processCommands
deriving DecidableEq

/-- The allowed-mentions setting of an outgoing repost, if the action is
one. -/
def Action.repostMentions : Action → Option AllowedMentions
  | .mediaPost c _ => some c.mentions
  | .textPost c _ => some c.mentions
  | _ => none

def Action.isRepost : Action → Bool
  | .mediaPost _ _ => true
  | .textPost _ _ => true
  | _ => false

def Action.isSuccessfulRepost : Action → Bool
  | .mediaPost _ ok => ok
  | .textPost _ ok => ok
  | _ => false

def Action.isDelete : Action → Bool
  | .deleteOriginal _ => true
  | _ => false

/-- One iteration of the `for u in urls` loop of `_reupload_instaface_media`
(src/bot.py lines 372–406): download; skip the URL (without cleanup) when the
download returned nothing or the file is missing; otherwise send
`"{mention} shared: <u>"` with the file through the webhook-or-fallback path
with `AllowedMentions(users=True, roles=False, everyone=False)`, then remove
the file and its temp directory whether or not the send succeeded. -/
def reupload_step (manageWebhooks : Bool) (mention : List Char) (senv : SendEnv)
    (dl : DlResult) (u : List Char) (fs : FS) : Bool × List Action × FS :=
  match download_media_file fs dl with
  | (none, fs') => (false, [], fs')
  | (some (d, f, ex), fs') =>
    if !ex then (false, [], fs')
    else
      let content := mention ++ " shared: <".toList ++ u ++ ">".toList
      let s := send_via_webhook_or_fallback manageWebhooks senv content
        (some ⟨true, false, false⟩)
      (s.1, s.2.map (fun c => Action.mediaPost c s.1), (fs'.removeFile d f).rmtree d)

/-- The `for` loop of `_reupload_instaface_media`, with a per-URL oracle
(download result and send environment, indexed by loop position). -/
def reupload_loop (manageWebhooks : Bool) (mention : List Char)
    (o : Nat → DlResult × SendEnv) : Nat → List (List Char) → FS → Bool × List Action × FS
  | _, [], fs => (false, [], fs)
  | i, u :: us, fs =>
    let r := reupload_step manageWebhooks mention (o i).2 (o i).1 u fs
    let rest := reupload_loop manageWebhooks mention o (i + 1) us r.2.2
    (r.1 || rest.1, r.2.1 ++ rest.2.1, rest.2.2)

/-- `_reupload_instaface_media` (src/bot.py lines 349–408).  `channelOk`
models the two `isinstance` guards at its head (message channel is a
text-channel or thread, and the webhook parent is a text channel); when
`on_message` reaches the call these hold (they are re-checked there at lines
462–465).  Returns whether at least one media upload succeeded. -/
def reupload_instaface_media (channelOk : Bool) (manageWebhooks : Bool)
    (mention : List Char) (o : Nat → DlResult × SendEnv) (urls : List (List Char))
    (fs : FS) : Bool × List Action × FS :=
  if urls.isEmpty then (false, [], fs)
  else if !channelOk then (false, [], fs)
  else reupload_loop manageWebhooks mention o 0 urls fs

/-! ## The `on_message` handler (src/bot.py lines 411–494) -/

/-- The per-message situation `on_message` observes: where the message was
posted, who wrote it, what the bot may do there, and the text. -/
structure MsgEnv where
  /-- `message.guild is not None`. -/
  hasGuild : Bool
  channel : ChannelKind
  /-- For a thread: `isinstance(channel.parent, discord.TextChannel)`. -/
  threadParentIsText : Bool
  /-- `message.author.bot`. -/
  authorIsBot : Bool
  /-- `message.webhook_id is not None`. -/
  fromWebhook : Bool
  /-- `message.guild.me is not None`. -/
  meExists : Bool
  /-- `perms.manage_messages` for the bot in this channel. -/
  manageMessages : Bool
  /-- `perms.manage_webhooks` for the bot in this channel. -/
  manageWebhooks : Bool
  /-- `message.author.mention`. -/
  authorMention : List Char
  /-- `message.content or ""`. -/
  content : List Char

/-- The parent channel used for webhook management (src/bot.py line 462):
the channel itself for a text channel, `channel.parent` for a thread; the
subsequent `isinstance(parent, discord.TextChannel)` check. -/
def parent_is_text (env : MsgEnv) : Bool :=
  match env.channel with
  | .text _ => true
  | .thread _ => env.threadParentIsText
  | .other => false

/-- Oracle for all external calls one `on_message` run makes. -/
structure Oracle where
  /-- Download result and send environment for the i-th Instagram/Facebook
  URL. -/
  media : Nat → DlResult × SendEnv
  /-- Send environment for the rewritten-text repost. -/
  textSend : SendEnv
  /-- Whether `message.delete()` succeeds (`false` = raises; swallowed). -/
  deleteOk : Bool

/-- The media step (src/bot.py lines 457–469): collect the
Instagram/Facebook URLs of the message and reupload them when there are any;
the `Bool` is `did_media`. -/
def pipeline_media (env : MsgEnv) (o : Oracle) (fs : FS) : Bool × List Action × FS :=
  if ((scanUrls env.content).filter (fun u => is_instagram u || is_facebook u)).isEmpty then
    (false, [], fs)
  else
    reupload_instaface_media true env.manageWebhooks env.authorMention o.media
      ((scanUrls env.content).filter (fun u => is_instagram u || is_facebook u)) fs

/-- The text step (src/bot.py lines 471–485): repost the rewritten content
with `discord.AllowedMentions.all()` only when the `changed` flag is set. -/
def pipeline_text (env : MsgEnv) (o : Oracle) : Bool × List Action :=
  if (fix_message_content_for_links env.content).2 then
    ((send_via_webhook_or_fallback env.manageWebhooks o.textSend
        (fix_message_content_for_links env.content).1 (some AllowedMentions.allPings)).1,
      (send_via_webhook_or_fallback env.manageWebhooks o.textSend
        (fix_message_content_for_links env.content).1 (some AllowedMentions.allPings)).2.map
        (fun c => Action.textPost c
          (send_via_webhook_or_fallback env.manageWebhooks o.textSend
            (fix_message_content_for_links env.content).1
            (some AllowedMentions.allPings)).1))
  else (false, [])

/-- The media, text and delete steps of `on_message`, reached once every
guard has passed (src/bot.py lines 457–494): the media reuploads, then the
text repost, then — exactly when at least one repost (media or text)
succeeded — the deletion of the original, whose outcome `o.deleteOk` is
swallowed either way, after which `bot.process_commands` runs. -/
def pipeline (env : MsgEnv) (o : Oracle) (fs : FS) : List Action × FS :=
  ((pipeline_media env o fs).2.1 ++ (pipeline_text env o).2 ++
      (if (pipeline_media env o fs).1 || (pipeline_text env o).1 then
        [Action.deleteOriginal o.deleteOk]
      else []) ++
      [Action.processCommands],
    (pipeline_media env o fs).2.2)

/-- `on_message` (src/bot.py lines 411–494): the guard cascade, then
`pipeline`.  Every early `return` path runs only `bot.process_commands` and
leaves everything untouched.  The guards, in source order: DM check (guild is
`None`), channel-type check together with the allow-list check on the
effective channel id (the channel-type check and `_effective_linkfix_id`
returning `None` coincide: the latter is `None` exactly off
text-channels/threads), bot/webhook author check, `guild.me` check,
`manage_messages` check, and the webhook-parent check. -/
def on_message (env : MsgEnv) (o : Oracle) (fs : FS) : List Action × FS :=
  if !env.hasGuild then ([Action.processCommands], fs)
  else
    match effective_linkfix_id env.channel with
    | none => ([Action.processCommands], fs)
    | some eid =>
      if !(LINKFIX_CHANNEL_IDS.contains eid) then ([Action.processCommands], fs)
      else if env.authorIsBot || env.fromWebhook then ([Action.processCommands], fs)
      else if !env.meExists then ([Action.processCommands], fs)
      else if !env.manageMessages then ([Action.processCommands], fs)
      else if !parent_is_text env then ([Action.processCommands], fs)
      else pipeline env o fs

/-- The allow-list precondition of claim C4: the channel (or, for a thread,
its parent channel) is on `LINKFIX_CHANNEL_IDS`. -/
def allowlisted (env : MsgEnv) : Bool :=
  match effective_linkfix_id env.channel with
  | some eid => LINKFIX_CHANNEL_IDS.contains eid
  | none => false

/-- Forgets whether the swallowed delete call succeeded (claim C5: the
pipeline's behaviour does not depend on it). -/
def Action.stripDeleteFlag : Action → Action
  | .deleteOriginal _ => .deleteOriginal true
  | a => a

/-! ## Spec-side characterization of the scanner (claim C7)

The claim describes the scanner's output declaratively: "exactly the maximal
substrings that start with `http://` or `https://`, are not immediately
preceded by the character `<`, and extend to the next whitespace or `>`
character, in the order they appear".  The definitions below follow those
words over positions `i` of the text `t`; a candidate is maximal when its
span is not properly contained in the span of another candidate.  ("Extends
to the next whitespace or `>`" is read as the regex's `[^\s>]+`: at least one
character follows the scheme.) -/

/-- All characters of `t` in positions `[a, b)` are non-stop characters. -/
def specStopFree (t : List Char) (a b : Nat) : Bool :=
  ((t.drop a).take (b - a)).all (fun c => !isStopChar c)

/-- The candidate is not immediately preceded by `<`. -/
def specLookbehindOk (t : List Char) (i : Nat) : Bool :=
  (i == 0) || !(t.get? (i - 1) == some '<')

/-- A candidate URL starts at position `i` of `t`: the text has `http://` or
`https://` there, the position is not immediately preceded by `<`, and at
least one non-stop character follows the scheme. -/
def specCandAt (t : List Char) (i : Nat) : Bool :=
  match schemeAt (t.drop i) with
  | some n =>
    specLookbehindOk t i &&
      !((t.drop (i + n)).takeWhile (fun c => !isStopChar c)).isEmpty
  | none => false

/-- The substring starting at `i` and extending to the next whitespace or `>`
character (or the end of the text). -/
def specCandStr (t : List Char) (i : Nat) : List Char :=
  (t.drop i).takeWhile (fun c => !isStopChar c)

/-- One past the last position of the candidate starting at `i`. -/
def specEnd (t : List Char) (i : Nat) : Nat := i + (specCandStr t i).length

/-- The candidate at `i` is maximal: no candidate starting strictly earlier
has a span containing it. -/
def specMaximalAt (t : List Char) (i : Nat) : Bool :=
  specCandAt t i &&
    (List.range i).all (fun j => !(specCandAt t j && decide (specEnd t i ≤ specEnd t j)))

/-- The spec's description of the scanner output: the maximal candidate
substrings, in order of their start position. -/
def specUrls (t : List Char) : List (List Char) :=
  ((List.range t.length).filter (specMaximalAt t)).map (specCandStr t)

/-- Whether the character just before position `k` of `t` is `<` (the
lookbehind state the scanning loop threads along). -/
def prevLtAt (t : List Char) (k : Nat) : Bool :=
  !(k == 0) && (t.get? (k - 1) == some '<')

/-- Scanning invariant at position `k`: no candidate at or after `k` is
reachable, without crossing a stop character, from a candidate strictly
before `k`. -/
def noEarlierCand (t : List Char) (k : Nat) : Prop :=
  ∀ i, k ≤ i → specCandAt t i = true →
    ∀ j, j < k → ¬(specCandAt t j = true ∧ specStopFree t j i = true)

/-! ## Concrete sample runs (used by counterexamples and witnesses) -/

/-- An empty disk. -/
def fs0 : FS := ⟨[], []⟩

/-- A send environment with no webhook available (listing forbidden) and a
working plain send. -/
def senvPlain : SendEnv := ⟨CallResult.forbidden, CallResult.err, false, true⟩

/-- An oracle where downloads fail, sends go the plain route, deletes
succeed. -/
def oPlain : Oracle := ⟨fun _ => (DlResult.fail, senvPlain), senvPlain, true⟩

/-- Scenario A situation: a human message in the (allow-listed) shitposting
channel containing a raw Twitter link, with delete permission and without
webhook permission. -/
def envA : MsgEnv :=
  { hasGuild := true
    channel := ChannelKind.text 1251693839962607675
    threadParentIsText := true
    authorIsBot := false
    fromWebhook := false
    meExists := true
    manageMessages := true
    manageWebhooks := false
    authorMention := "<@42>".toList
    content := "check this https://twitter.com/user/status/123".toList }

/-- Scenario C situation: the same message posted in a channel that is not on
the allow-list. -/
def envC : MsgEnv :=
  { envA with channel := ChannelKind.text 999 }

/-- Scenario B situation: the message contains only an already-fixed link. -/
def envB : MsgEnv :=
  { envA with content := "https://fxtwitter.com/user/status/123".toList }

/-- A message containing a single Instagram URL. -/
def envI : MsgEnv :=
  { envA with content := "https://instagram.com/p/x".toList }

/-- An oracle whose downloads succeed (file 0, present on disk), sends go the
plain route, deletes succeed. -/
def oMedia : Oracle := ⟨fun _ => (DlResult.path 0 true, senvPlain), senvPlain, true⟩

/-! # Theorems

## Toolbox: substring search, first-occurrence replace, lower-casing -/

theorem containsSub_iff (n : List Char) :
    ∀ h : List Char, containsSub n h = true ↔ n <:+: h
  | [] => by
    simp [containsSub, List.isPrefixOf_iff_prefix, List.prefix_nil, List.infix_nil]
  | c :: cs => by
    simp [containsSub, List.isPrefixOf_iff_prefix, List.infix_cons_iff,
      containsSub_iff n cs]

theorem replaceFirst_eq_or_append (old new : List Char) :
    ∀ s : List Char, replaceFirst old new s = s ∨
      ∃ p q, replaceFirst old new s = p ++ (new ++ q)
  | [] => by
    by_cases h : old.isPrefixOf ([] : List Char)
    · exact Or.inr ⟨[], ([] : List Char).drop old.length, by simp [replaceFirst, h]⟩
    · exact Or.inl (by simp [replaceFirst, h])
  | c :: cs => by
    by_cases h : old.isPrefixOf (c :: cs)
    · exact Or.inr ⟨[], (c :: cs).drop old.length, by simp [replaceFirst, h]⟩
    · rcases replaceFirst_eq_or_append old new cs with h1 | ⟨p, q, h1⟩
      · exact Or.inl (by simp [replaceFirst, h, h1])
      · exact Or.inr ⟨c :: p, q, by simp [replaceFirst, h, h1]⟩

theorem replaceFirst_of_not_contains (old new : List Char) :
    ∀ s : List Char, containsSub old s = false → replaceFirst old new s = s
  | [], h => by
    simp only [containsSub] at h
    simp [replaceFirst, h]
  | c :: cs, h => by
    simp only [containsSub, Bool.or_eq_false_iff] at h
    simp [replaceFirst, h.1, replaceFirst_of_not_contains old new cs h.2]

theorem lowerStr_append (a b : List Char) :
    lowerStr (a ++ b) = lowerStr a ++ lowerStr b :=
  List.map_append _ a b

theorem hits_skip_list_of_skip_sub {d s : List Char} (hd : d ∈ SKIP_DOMAINS)
    (h : d <:+: lowerStr s) : hits_skip_list s = true :=
  List.any_eq_true.mpr ⟨d, hd, (containsSub_iff d (lowerStr s)).mpr h⟩

/-- Skip-list hit ⟹ the URL is returned unchanged (first branch of
`_swap_domain`). -/
theorem swap_domain_of_hits (s : List Char) (h : hits_skip_list s = true) :
    swap_domain s = s := by
  simp [swap_domain, h]

/-- With no skip-list hit, `_swap_domain` reduces to the host-table
dispatch. -/
theorem swap_domain_eq_of_host (url host : List Char)
    (hs : hits_skip_list url = false) (hh : extract_host url = some host) :
    swap_domain url =
      if host.isEmpty then url
      else if TWITTER_DOMAINS.contains host then
        replaceFirst host "fxtwitter.com".toList url
      else if X_DOMAINS.contains host then
        replaceFirst host "fixupx.com".toList url
      else if REDDIT_DOMAINS.contains host then
        replaceFirst host "rxddit.com".toList url
      else url := by
  simp [swap_domain, hs, hh]

/-- A first-occurrence replacement that changed the string has planted its
replacement (a lower-case skip domain) into it. -/
theorem replace_branch_hits (host lit url : List Char) (hlit : lit ∈ SKIP_DOMAINS)
    (hlow : lowerStr lit = lit) (h : replaceFirst host lit url ≠ url) :
    hits_skip_list (replaceFirst host lit url) = true := by
  rcases replaceFirst_eq_or_append host lit url with h1 | ⟨p, q, h1⟩
  · exact absurd h1 h
  · rw [h1]
    apply hits_skip_list_of_skip_sub hlit
    rw [lowerStr_append, lowerStr_append, hlow]
    exact List.infix_append' _ _ _

/-- If `_swap_domain` changed the URL, the result contains a skip-list
domain. -/
theorem swap_domain_changed_hits (url : List Char) (h : swap_domain url ≠ url) :
    hits_skip_list (swap_domain url) = true := by
  by_cases hs : hits_skip_list url = true
  · exact absurd (swap_domain_of_hits url hs) h
  · have hs' : hits_skip_list url = false := by
      simpa using hs
    cases hh : extract_host url with
    | none => exact absurd (by simp [swap_domain, hs', hh]) h
    | some host =>
      rw [swap_domain_eq_of_host url host hs' hh] at h ⊢
      by_cases he : host.isEmpty
      · simp [he] at h
      · simp only [he, Bool.false_eq_true, if_false] at h ⊢
        by_cases ht : TWITTER_DOMAINS.contains host
        · simp only [ht, if_true] at h ⊢
          exact replace_branch_hits host _ url (by decide) (by decide) h
        · simp only [ht, Bool.false_eq_true, if_false] at h ⊢
          by_cases hx : X_DOMAINS.contains host
          · simp only [hx, if_true] at h ⊢
            exact replace_branch_hits host _ url (by decide) (by decide) h
          · simp only [hx, Bool.false_eq_true, if_false] at h ⊢
            by_cases hr : REDDIT_DOMAINS.contains host
            · simp only [hr, if_true] at h ⊢
              exact replace_branch_hits host _ url (by decide) (by decide) h
            · simp only [hr, Bool.false_eq_true, if_false] at h
              exact absurd rfl h

theorem swap_domain_idem (url : List Char) :
    swap_domain (swap_domain url) = swap_domain url := by
  by_cases h : swap_domain url = url
  · rw [h, h]
  · exact swap_domain_of_hits _ (swap_domain_changed_hits url h)

/-! ## Claim C2 -/

/-- C2: every URL whose lower-cased form contains a skip-list domain as a
substring (anywhere, not only in the host) is returned unchanged by
`_swap_domain`, and rewriting is idempotent: a second application is a
no-op. -/
theorem C2_skip_precedence_and_idempotence (url : List Char) :
    ((∃ d ∈ SKIP_DOMAINS, d <:+: lowerStr url) → swap_domain url = url) ∧
    swap_domain (swap_domain url) = swap_domain url :=
  ⟨fun h => by
    obtain ⟨d, hd, hinf⟩ := h
    exact swap_domain_of_hits url (hits_skip_list_of_skip_sub hd hinf),
   swap_domain_idem url⟩

/-- Witness for C2: a URL with a skip domain in its host position, and the
idempotence instance on a plain Twitter URL. -/
theorem C2_skip_precedence_and_idempotence_witness :
    (∃ d ∈ SKIP_DOMAINS, d <:+: lowerStr "https://app.fixupx.com/x?q=1".toList) ∧
    swap_domain "https://app.fixupx.com/x?q=1".toList =
      "https://app.fixupx.com/x?q=1".toList ∧
    swap_domain (swap_domain "https://twitter.com/user/status/123".toList) =
      swap_domain "https://twitter.com/user/status/123".toList :=
  ⟨⟨"fixupx.com".toList, by decide, by decide⟩,
   (C2_skip_precedence_and_idempotence _).1 ⟨"fixupx.com".toList, by decide, by decide⟩,
   (C2_skip_precedence_and_idempotence _).2⟩

/-! ## Claim C3 -/

theorem hits_skip_list_eq_false_of (url : List Char)
    (h : ∀ d ∈ SKIP_DOMAINS, ¬ d <:+: lowerStr url) : hits_skip_list url = false := by
  rw [← Bool.not_eq_true]
  simp only [hits_skip_list, List.any_eq_true, not_exists]
  intro d hcont
  rcases hcont with ⟨hd, hc⟩
  exact h d hd ((containsSub_iff d (lowerStr url)).mp hc)

/-- C3 as stated is false: `https://twitter.com/fxtwitter.com` has host
`twitter.com` (in the Twitter set), yet the rewriter returns it unchanged
(the skip-list substring check fires first), instead of replacing the first
occurrence of the host with `fxtwitter.com`. -/
theorem C3_counterexample :
    extract_host "https://twitter.com/fxtwitter.com".toList = some "twitter.com".toList ∧
    "twitter.com".toList ∈ TWITTER_DOMAINS ∧
    swap_domain "https://twitter.com/fxtwitter.com".toList =
      "https://twitter.com/fxtwitter.com".toList ∧
    replaceFirst "twitter.com".toList "fxtwitter.com".toList
        "https://twitter.com/fxtwitter.com".toList ≠
      "https://twitter.com/fxtwitter.com".toList :=
  ⟨by decide, by decide, by decide, by decide⟩

/-- C3 amended: provided the lower-cased URL contains no skip-list domain,
a URL whose extracted host is in the Twitter set is rewritten by replacing
the first occurrence of the (lower-cased) host string with `fxtwitter.com`
(Python first-occurrence `str.replace` semantics — a no-op when the
lower-cased host does not occur literally); analogously for the X set with
`fixupx.com` and the Reddit set with `rxddit.com`; and the concrete message
`check this https://twitter.com/user/status/123` rewrites to
`check this https://fxtwitter.com/user/status/123` with the changed flag
set. -/
theorem C3_amended :
    (∀ url host, extract_host url = some host → host ∈ TWITTER_DOMAINS →
      (∀ d ∈ SKIP_DOMAINS, ¬ d <:+: lowerStr url) →
      swap_domain url = replaceFirst host "fxtwitter.com".toList url) ∧
    (∀ url host, extract_host url = some host → host ∈ X_DOMAINS →
      (∀ d ∈ SKIP_DOMAINS, ¬ d <:+: lowerStr url) →
      swap_domain url = replaceFirst host "fixupx.com".toList url) ∧
    (∀ url host, extract_host url = some host → host ∈ REDDIT_DOMAINS →
      (∀ d ∈ SKIP_DOMAINS, ¬ d <:+: lowerStr url) →
      swap_domain url = replaceFirst host "rxddit.com".toList url) ∧
    fix_message_content_for_links "check this https://twitter.com/user/status/123".toList =
      ("check this https://fxtwitter.com/user/status/123".toList, true) := by
  refine ⟨?_, ?_, ?_, by decide⟩
  · intro url host hh hmem hskip
    rw [swap_domain_eq_of_host url host (hits_skip_list_eq_false_of url hskip) hh]
    simp only [TWITTER_DOMAINS, List.mem_cons, List.not_mem_nil, or_false] at hmem
    rcases hmem with rfl | rfl | rfl <;> simp +decide
  · intro url host hh hmem hskip
    rw [swap_domain_eq_of_host url host (hits_skip_list_eq_false_of url hskip) hh]
    simp only [X_DOMAINS, List.mem_cons, List.not_mem_nil, or_false] at hmem
    rcases hmem with rfl | rfl | rfl <;> simp +decide
  · intro url host hh hmem hskip
    rw [swap_domain_eq_of_host url host (hits_skip_list_eq_false_of url hskip) hh]
    simp only [REDDIT_DOMAINS, List.mem_cons, List.not_mem_nil, or_false] at hmem
    rcases hmem with rfl | rfl | rfl | rfl | rfl <;> simp +decide

/-- Witness for the amended C3: one instance per host table. -/
theorem C3_amended_witness :
    swap_domain "https://twitter.com/a".toList =
      replaceFirst "twitter.com".toList "fxtwitter.com".toList "https://twitter.com/a".toList ∧
    swap_domain "https://x.com/a".toList =
      replaceFirst "x.com".toList "fixupx.com".toList "https://x.com/a".toList ∧
    swap_domain "https://redd.it/a".toList =
      replaceFirst "redd.it".toList "rxddit.com".toList "https://redd.it/a".toList :=
  ⟨C3_amended.1 _ _ (by decide) (by decide) (by decide),
   C3_amended.2.1 _ _ (by decide) (by decide) (by decide),
   C3_amended.2.2.1 _ _ (by decide) (by decide) (by decide)⟩

/-! ## Claim C10 -/

/-- C10 as stated is false: `https://Twitter.com/twitter.com` has a host
written with an uppercase letter (.lower() matches the Twitter set only
case-insensitively), yet the rewriter does *not* return it unchanged: the
replacement searches for the lower-cased host string and finds (and replaces)
its occurrence in the path, so the URL changes and the changed flag is
set. -/
theorem C10_counterexample :
    raw_host "https://Twitter.com/twitter.com".toList = some "Twitter.com".toList ∧
    "Twitter.com".toList.any (fun c => c.isUpper) = true ∧
    extract_host "https://Twitter.com/twitter.com".toList = some "twitter.com".toList ∧
    "twitter.com".toList ∈ TWITTER_DOMAINS ∧
    swap_domain "https://Twitter.com/twitter.com".toList =
      "https://Twitter.com/fxtwitter.com".toList ∧
    swap_domain "https://Twitter.com/twitter.com".toList ≠
      "https://Twitter.com/twitter.com".toList ∧
    fix_message_content_for_links "https://Twitter.com/twitter.com".toList =
      ("https://Twitter.com/fxtwitter.com".toList, true) :=
  ⟨by decide, by decide, by decide, by decide, by decide, by decide, by decide⟩

/-- C10 amended: a URL whose extracted (lower-cased) host is in the
Twitter/X/Reddit tables is classified as rewritable, but when the lower-cased
host string does not occur case-sensitively anywhere in the URL as written
(e.g. the host is written with uppercase letters and appears nowhere else in
lower case), the first-occurrence replacement finds nothing, the URL is
returned completely unchanged, and a message all of whose scanned URLs are
left unchanged keeps the changed flag false. -/
theorem C10_amended :
    (∀ url host, extract_host url = some host →
      (host ∈ TWITTER_DOMAINS ∨ host ∈ X_DOMAINS ∨ host ∈ REDDIT_DOMAINS) →
      ¬ host <:+: url →
      swap_domain url = url ∧ fix_repl url = url) ∧
    (∀ content, (∀ u ∈ scanUrls content, fix_repl u = u) →
      (fix_message_content_for_links content).2 = false) := by
  constructor
  · intro url host hh hmem hinf
    have hnc : containsSub host url = false := by
      rw [← Bool.not_eq_true]
      intro hc
      exact hinf ((containsSub_iff _ _).mp hc)
    have hrep : ∀ lit, replaceFirst host lit url = url := fun lit =>
      replaceFirst_of_not_contains _ _ _ hnc
    have hswap : swap_domain url = url := by
      by_cases hs : hits_skip_list url = true
      · exact swap_domain_of_hits url hs
      · rw [swap_domain_eq_of_host url host (by simpa using hs) hh]
        rcases hmem with h3 | h3 | h3
        · simp only [TWITTER_DOMAINS, List.mem_cons, List.not_mem_nil, or_false] at h3
          rcases h3 with rfl | rfl | rfl <;>
            (rw [if_neg (by decide), if_pos (by decide)]; exact hrep _)
        · simp only [X_DOMAINS, List.mem_cons, List.not_mem_nil, or_false] at h3
          rcases h3 with rfl | rfl | rfl <;>
            (rw [if_neg (by decide), if_neg (by decide), if_pos (by decide)]; exact hrep _)
        · simp only [REDDIT_DOMAINS, List.mem_cons, List.not_mem_nil, or_false] at h3
          rcases h3 with rfl | rfl | rfl | rfl | rfl <;>
            (rw [if_neg (by decide), if_neg (by decide), if_neg (by decide),
              if_pos (by decide)]; exact hrep _)
    refine ⟨hswap, ?_⟩
    by_cases hif : (is_instagram url || is_facebook url) = true
    · simp [fix_repl, hif]
    · simp only [Bool.not_eq_true] at hif
      simp [fix_repl, hif, hswap]
  · intro content h
    have hall : ∀ u ∈ scanUrls content, ¬(fix_repl u != u) = true := by
      intro u hu
      simp [h u hu]
    simp only [fix_message_content_for_links]
    exact List.any_eq_false.mpr hall

/-- Witness for the amended C10 at `https://TWITTER.COM/x`: classified
Twitter, left unchanged, changed flag false. -/
theorem C10_amended_witness :
    (swap_domain "https://TWITTER.COM/x".toList = "https://TWITTER.COM/x".toList ∧
      fix_repl "https://TWITTER.COM/x".toList = "https://TWITTER.COM/x".toList) ∧
    (fix_message_content_for_links "https://TWITTER.COM/x".toList).2 = false :=
  ⟨C10_amended.1 "https://TWITTER.COM/x".toList "twitter.com".toList (by decide)
      (Or.inl (by decide)) (by decide),
   C10_amended.2 "https://TWITTER.COM/x".toList (by decide)⟩

/-! ## Claim C6 -/

/-- C6 as stated is false on two counts.  (a) The reuse check is
`wh.user and wh.user.bot`: *any* bot-owned webhook is reused, not only one
owned by this bot — the function reuses hooks with arbitrary distinct owner
ids (here 1 and 999), and at most one of those owners can be the bot itself.
(b) When a webhook is available and its send fails, the call returns failure
without attempting the plain fallback (no `viaPlain` call appears), even
though the plain send would have succeeded. -/
theorem C6_counterexample :
    get_or_create_webhook (CallResult.ok [⟨true, true, 1⟩]) CallResult.err =
      some ⟨true, true, 1⟩ ∧
    get_or_create_webhook (CallResult.ok [⟨true, true, 999⟩]) CallResult.err =
      some ⟨true, true, 999⟩ ∧
    send_via_webhook_or_fallback true
        ⟨CallResult.ok [⟨true, true, 999⟩], CallResult.err, false, true⟩
        "hello".toList none =
      (false, [SendCall.viaWebhook ⟨true, true, 999⟩ "hello".toList
        AllowedMentions.noPings]) :=
  ⟨by decide, by decide, by decide⟩

/-- C6 amended: the mechanism reuses the first existing webhook whose owner
user is set and is a bot (any bot, not necessarily this bot); creates one when
no such webhook exists; when the mechanism is unavailable (no manage-webhooks
permission, or the lookup/creation failed) the repost falls back to a plain
bot-authored send of the same content; but when the webhook send itself
fails, the call reports failure without attempting the plain fallback. -/
theorem C6_amended :
    (∀ hooks wc, (∃ w ∈ hooks, w.hasUser = true ∧ w.userIsBot = true) →
      ∃ wh, get_or_create_webhook (CallResult.ok hooks) wc = some wh ∧
        wh ∈ hooks ∧ wh.hasUser = true ∧ wh.userIsBot = true) ∧
    (∀ hooks wh, (∀ w ∈ hooks, ¬(w.hasUser = true ∧ w.userIsBot = true)) →
      get_or_create_webhook (CallResult.ok hooks) (CallResult.ok wh) = some wh) ∧
    (∀ env content am, send_via_webhook_or_fallback false env content am =
      (env.plainSendOk, [SendCall.viaPlain content (am.getD AllowedMentions.noPings)])) ∧
    (∀ env content am, get_or_create_webhook env.webhooksCall env.createCall = none →
      send_via_webhook_or_fallback true env content am =
        (env.plainSendOk, [SendCall.viaPlain content (am.getD AllowedMentions.noPings)])) ∧
    (∀ env content am wh,
      get_or_create_webhook env.webhooksCall env.createCall = some wh →
      send_via_webhook_or_fallback true env content am =
        (env.webhookSendOk,
          [SendCall.viaWebhook wh content (am.getD AllowedMentions.noPings)])) := by
  refine ⟨?_, ?_, ?_, ?_, ?_⟩
  · intro hooks wc hex
    have hsome : (hooks.find? (fun w => w.hasUser && w.userIsBot)).isSome := by
      rw [List.find?_isSome]
      obtain ⟨w, hw, h1, h2⟩ := hex
      exact ⟨w, hw, by simp [h1, h2]⟩
    obtain ⟨wh, hwh⟩ := Option.isSome_iff_exists.mp hsome
    refine ⟨wh, ?_, List.mem_of_find?_eq_some hwh, ?_⟩
    · simp [get_or_create_webhook, hwh]
    · have := List.find?_some hwh
      simpa using this
  · intro hooks wh habs
    have hnone : hooks.find? (fun w => w.hasUser && w.userIsBot) = none := by
      rw [List.find?_eq_none]
      intro w hw
      simp only [Bool.and_eq_true]
      exact fun hc => habs w hw hc
    simp [get_or_create_webhook, hnone]
  · intro env content am
    simp [send_via_webhook_or_fallback]
  · intro env content am h
    simp [send_via_webhook_or_fallback, h]
  · intro env content am wh h
    simp [send_via_webhook_or_fallback, h]

/-- Witness for the amended C6: one closed instance per conjunct. -/
theorem C6_amended_witness :
    (∃ wh, get_or_create_webhook (CallResult.ok [⟨false, false, 0⟩, ⟨true, true, 7⟩])
        CallResult.err = some wh ∧
      wh ∈ [(⟨false, false, 0⟩ : Webhook), ⟨true, true, 7⟩] ∧
      wh.hasUser = true ∧ wh.userIsBot = true) ∧
    get_or_create_webhook (CallResult.ok [(⟨true, false, 3⟩ : Webhook)])
        (CallResult.ok ⟨true, true, 4⟩) = some ⟨true, true, 4⟩ ∧
    send_via_webhook_or_fallback false ⟨CallResult.err, CallResult.err, false, true⟩
        "a".toList none =
      (true, [SendCall.viaPlain "a".toList AllowedMentions.noPings]) ∧
    send_via_webhook_or_fallback true ⟨CallResult.forbidden, CallResult.err, false, true⟩
        "a".toList none =
      (true, [SendCall.viaPlain "a".toList AllowedMentions.noPings]) ∧
    send_via_webhook_or_fallback true
        ⟨CallResult.ok [(⟨true, true, 7⟩ : Webhook)], CallResult.err, true, false⟩
        "a".toList (some AllowedMentions.allPings) =
      (true, [SendCall.viaWebhook ⟨true, true, 7⟩ "a".toList AllowedMentions.allPings]) :=
  ⟨C6_amended.1 _ CallResult.err ⟨⟨true, true, 7⟩, by decide, by decide, by decide⟩,
   C6_amended.2.1 _ _ (by decide),
   C6_amended.2.2.1 _ _ _,
   C6_amended.2.2.2.1 _ _ _ (by decide),
   C6_amended.2.2.2.2 _ _ _ _ (by decide)⟩

/-! ## Claim C9 -/

theorem mem_le_foldr_max {x : Nat} : ∀ {l : List Nat}, x ∈ l → x ≤ l.foldr max 0
  | a :: l, h => by
    rcases List.mem_cons.mp h with rfl | h1
    · exact Nat.le_max_left _ _
    · exact Nat.le_trans (mem_le_foldr_max h1) (Nat.le_max_right _ _)

/-- `mkdtemp`: the chosen directory is genuinely fresh. -/
theorem freshDir_not_mem (fs : FS) : fs.freshDir ∉ fs.dirs := by
  intro h
  have h2 := mem_le_foldr_max h
  simp only [FS.freshDir] at h2
  omega

/-- The one-send shape of `_send_via_webhook_or_fallback`: exactly one
outgoing call, carrying the given content and the given allowed-mentions
setting. -/
theorem send_via_shape (mw : Bool) (env : SendEnv) (content : List Char)
    (am : Option AllowedMentions) :
    ∃ c, (send_via_webhook_or_fallback mw env content am).2 = [c] ∧
      c.mentions = am.getD AllowedMentions.noPings ∧ c.content = content := by
  unfold send_via_webhook_or_fallback
  cases hw : (if mw then get_or_create_webhook env.webhooksCall env.createCall else none) with
  | some wh =>
    exact ⟨SendCall.viaWebhook wh content (am.getD AllowedMentions.noPings),
      by simp [hw], rfl, rfl⟩
  | none =>
    exact ⟨SendCall.viaPlain content (am.getD AllowedMentions.noPings),
      by simp [hw], rfl, rfl⟩

theorem reupload_step_fail (mw : Bool) (mention : List Char) (senv : SendEnv)
    (u : List Char) (fs : FS) :
    reupload_step mw mention senv DlResult.fail u fs =
      (false, [], (⟨fs.freshDir :: fs.dirs, fs.files⟩ : FS).rmtree fs.freshDir) := by
  simp [reupload_step, download_media_file]

theorem reupload_step_path (mw : Bool) (mention : List Char) (senv : SendEnv)
    (u : List Char) (fs : FS) (f : Nat) :
    reupload_step mw mention senv (DlResult.path f true) u fs =
      ((send_via_webhook_or_fallback mw senv
          (mention ++ " shared: <".toList ++ u ++ ">".toList)
          (some ⟨true, false, false⟩)).1,
       (send_via_webhook_or_fallback mw senv
          (mention ++ " shared: <".toList ++ u ++ ">".toList)
          (some ⟨true, false, false⟩)).2.map
         (fun c => Action.mediaPost c
           (send_via_webhook_or_fallback mw senv
             (mention ++ " shared: <".toList ++ u ++ ">".toList)
             (some ⟨true, false, false⟩)).1),
       (((⟨fs.freshDir :: fs.dirs, (fs.freshDir, f) :: fs.files⟩ : FS).removeFile
           fs.freshDir f).rmtree fs.freshDir)) := by
  simp [reupload_step, download_media_file]

theorem reupload_step_path_missing (mw : Bool) (mention : List Char) (senv : SendEnv)
    (u : List Char) (fs : FS) (f : Nat) :
    reupload_step mw mention senv (DlResult.path f false) u fs =
      (false, [], (⟨fs.freshDir :: fs.dirs, fs.files⟩ : FS)) := by
  simp [reupload_step, download_media_file]

/-- C9: every download invocation picks a directory that does not collide
with anything on disk; a failed download removes the directory again (and any
file inside it); and after a successful download the loop body attempts the
upload (at least one outgoing call) and removes both the artifact file and
the directory, whether or not the upload succeeded (the statement is for
every send environment `senv`, hence for both outcomes). -/
theorem C9_media_tempdir_lifecycle :
    (∀ fs : FS, fs.freshDir ∉ fs.dirs) ∧
    (∀ (fs : FS) (mw : Bool) (mention : List Char) (senv : SendEnv) (u : List Char),
      (reupload_step mw mention senv DlResult.fail u fs).1 = false ∧
      (reupload_step mw mention senv DlResult.fail u fs).2.1 = [] ∧
      fs.freshDir ∉ (reupload_step mw mention senv DlResult.fail u fs).2.2.dirs ∧
      (∀ f', (fs.freshDir, f') ∉ (reupload_step mw mention senv DlResult.fail u fs).2.2.files)) ∧
    (∀ (fs : FS) (mw : Bool) (mention : List Char) (senv : SendEnv) (u : List Char) (f : Nat),
      (reupload_step mw mention senv (DlResult.path f true) u fs).2.1 ≠ [] ∧
      fs.freshDir ∉ (reupload_step mw mention senv (DlResult.path f true) u fs).2.2.dirs ∧
      (∀ f', (fs.freshDir, f') ∉
        (reupload_step mw mention senv (DlResult.path f true) u fs).2.2.files)) := by
  refine ⟨freshDir_not_mem, ?_, ?_⟩
  · intro fs mw mention senv u
    rw [reupload_step_fail]
    refine ⟨rfl, rfl, ?_, ?_⟩
    · simp only [FS.rmtree, List.erase_cons_head]
      exact freshDir_not_mem fs
    · intro f'
      simp only [FS.rmtree, List.mem_filter]
      rintro ⟨-, hbad⟩
      simp at hbad
  · intro fs mw mention senv u f
    rw [reupload_step_path]
    refine ⟨?_, ?_, ?_⟩
    · obtain ⟨c, hc, -, -⟩ := send_via_shape mw senv
        (mention ++ " shared: <".toList ++ u ++ ">".toList) (some ⟨true, false, false⟩)
      rw [hc]
      simp
    · simp only [FS.removeFile, FS.rmtree, List.erase_cons_head]
      exact freshDir_not_mem fs
    · intro f'
      simp only [FS.removeFile, FS.rmtree, List.mem_filter]
      rintro ⟨-, hbad⟩
      simp at hbad

/-! ## The guard cascade of `on_message` -/

/-- Either some guard fails — and then `on_message` only runs
`process_commands`, leaving everything untouched — or all guards hold and
`on_message` is the pipeline. -/
theorem on_message_guard_cases (env : MsgEnv) (o : Oracle) (fs : FS) :
    (on_message env o fs = ([Action.processCommands], fs) ∧
      ¬(env.hasGuild = true ∧ allowlisted env = true ∧ env.authorIsBot = false ∧
        env.fromWebhook = false ∧ env.meExists = true ∧ env.manageMessages = true ∧
        parent_is_text env = true)) ∨
    (env.hasGuild = true ∧ allowlisted env = true ∧ env.authorIsBot = false ∧
      env.fromWebhook = false ∧ env.meExists = true ∧ env.manageMessages = true ∧
      parent_is_text env = true ∧ on_message env o fs = pipeline env o fs) := by
  cases hgu : env.hasGuild with
  | false => exact Or.inl ⟨by simp [on_message, hgu], by simp [hgu]⟩
  | true =>
    cases heff : effective_linkfix_id env.channel with
    | none =>
      refine Or.inl ⟨by simp [on_message, hgu, heff], ?_⟩
      have hla : allowlisted env = false := by simp [allowlisted, heff]
      simp [hla]
    | some eid =>
      by_cases hmem : eid ∈ LINKFIX_CHANNEL_IDS
      case neg =>
        have hla : allowlisted env = false := by
          simp only [allowlisted, heff]
          simpa using hmem
        exact Or.inl ⟨by simp [on_message, hgu, heff, hmem], by simp [hla]⟩
      case pos =>
        have hall : allowlisted env = true := by
          simp only [allowlisted, heff]
          simpa using hmem
        cases hbot : env.authorIsBot with
        | true =>
          exact Or.inl ⟨by simp [on_message, hgu, heff, hmem, hbot], by simp [hbot]⟩
        | false =>
          cases hwh : env.fromWebhook with
          | true =>
            exact Or.inl ⟨by simp [on_message, hgu, heff, hmem, hbot, hwh], by simp [hwh]⟩
          | false =>
            cases hme : env.meExists with
            | false =>
              exact Or.inl ⟨by simp [on_message, hgu, heff, hmem, hbot, hwh, hme],
                by simp [hme]⟩
            | true =>
              cases hmm : env.manageMessages with
              | false =>
                exact Or.inl ⟨by simp [on_message, hgu, heff, hmem, hbot, hwh, hme, hmm],
                  by simp [hmm]⟩
              | true =>
                cases hpt : parent_is_text env with
                | false =>
                  exact Or.inl
                    ⟨by simp [on_message, hgu, heff, hmem, hbot, hwh, hme, hmm, hpt],
                      by simp [hpt]⟩
                | true =>
                  exact Or.inr ⟨rfl, hall, rfl, rfl, rfl, rfl, rfl,
                    by simp [on_message, hgu, heff, hmem, hbot, hwh, hme, hmm, hpt]⟩

/-! ## Claim C4 -/

/-- C4: unless the channel (or the thread's parent) is allow-listed, the
author is neither a bot nor a webhook, and the bot has the manage-messages
permission, `on_message` takes no action at all: it only runs
`process_commands`, sends nothing, deletes nothing, and leaves the filesystem
untouched — whatever the message content. -/
theorem C4_preconditions (env : MsgEnv) (o : Oracle) (fs : FS)
    (h : ¬(allowlisted env = true ∧ env.authorIsBot = false ∧
      env.fromWebhook = false ∧ env.manageMessages = true)) :
    on_message env o fs = ([Action.processCommands], fs) := by
  rcases on_message_guard_cases env o fs with ⟨heq, -⟩ |
    ⟨-, hall, hbot, hwh, -, hmm, -, -⟩
  · exact heq
  · exact absurd ⟨hall, hbot, hwh, hmm⟩ h

/-- Witness for C4 — scenario C: a raw Twitter link in a non-allow-listed
channel is passed through untouched. -/
theorem C4_preconditions_witness :
    on_message envC oPlain fs0 = ([Action.processCommands], fs0) :=
  C4_preconditions envC oPlain fs0 (by decide)

/-! ## Shape of the pipeline's repost actions -/

/-- Every action of one media-loop iteration is a media repost carrying
`AllowedMentions(users=True, roles=False, everyone=False)`, and the
iteration's success flag is the disjunction of the send results recorded in
its actions. -/
theorem reupload_step_actions (mw : Bool) (mention : List Char) (senv : SendEnv)
    (dl : DlResult) (u : List Char) (fs : FS) :
    (∀ a ∈ (reupload_step mw mention senv dl u fs).2.1,
      ∃ c ok, a = Action.mediaPost c ok ∧ c.mentions = ⟨true, false, false⟩) ∧
    (reupload_step mw mention senv dl u fs).2.1.any Action.isSuccessfulRepost =
      (reupload_step mw mention senv dl u fs).1 := by
  cases dl with
  | fail => rw [reupload_step_fail]; exact ⟨by simp, by simp⟩
  | path f ex =>
    cases ex with
    | false => rw [reupload_step_path_missing]; exact ⟨by simp, by simp⟩
    | true =>
      rw [reupload_step_path]
      obtain ⟨c, hc, hm, -⟩ := send_via_shape mw senv
        (mention ++ " shared: <".toList ++ u ++ ">".toList) (some ⟨true, false, false⟩)
      rw [hc]
      constructor
      · intro a ha
        simp only [List.map_cons, List.map_nil, List.mem_singleton] at ha
        exact ⟨c, _, ha, by simpa using hm⟩
      · simp [Action.isSuccessfulRepost]

theorem reupload_loop_actions (mw : Bool) (mention : List Char)
    (o : Nat → DlResult × SendEnv) :
    ∀ (urls : List (List Char)) (i : Nat) (fs : FS),
      (∀ a ∈ (reupload_loop mw mention o i urls fs).2.1,
        ∃ c ok, a = Action.mediaPost c ok ∧ c.mentions = ⟨true, false, false⟩) ∧
      (reupload_loop mw mention o i urls fs).2.1.any Action.isSuccessfulRepost =
        (reupload_loop mw mention o i urls fs).1
  | [], i, fs => by simp [reupload_loop]
  | u :: us, i, fs => by
    have hstep := reupload_step_actions mw mention (o i).2 (o i).1 u fs
    have hrest := reupload_loop_actions mw mention o us (i + 1)
      ((reupload_step mw mention (o i).2 (o i).1 u fs).2.2)
    simp only [reupload_loop]
    constructor
    · intro a ha
      rw [List.mem_append] at ha
      rcases ha with h | h
      · exact hstep.1 a h
      · exact hrest.1 a h
    · rw [List.any_append, hstep.2, hrest.2]

theorem pipeline_media_actions (env : MsgEnv) (o : Oracle) (fs : FS) :
    (∀ a ∈ (pipeline_media env o fs).2.1,
      ∃ c ok, a = Action.mediaPost c ok ∧ c.mentions = ⟨true, false, false⟩) ∧
    (pipeline_media env o fs).2.1.any Action.isSuccessfulRepost =
      (pipeline_media env o fs).1 := by
  cases he : ((scanUrls env.content).filter
      (fun u => is_instagram u || is_facebook u)).isEmpty with
  | true =>
    have hp : pipeline_media env o fs = (false, [], fs) := by
      unfold pipeline_media
      rw [if_pos he]
    rw [hp]
    exact ⟨by simp, by simp⟩
  | false =>
    have hp : pipeline_media env o fs =
        reupload_loop env.manageWebhooks env.authorMention o.media 0
          ((scanUrls env.content).filter (fun u => is_instagram u || is_facebook u)) fs := by
      unfold pipeline_media reupload_instaface_media
      rw [if_neg (by simp [he]), if_neg (by simp [he]), if_neg (by simp)]
    rw [hp]
    exact reupload_loop_actions env.manageWebhooks env.authorMention o.media _ 0 fs

/-- The text step: either nothing changed and it does nothing, or it emits
exactly one text repost with `AllowedMentions.all()` carrying the rewritten
content, recording the send result. -/
theorem pipeline_text_actions (env : MsgEnv) (o : Oracle) :
    (∀ a ∈ (pipeline_text env o).2,
      ∃ c, a = Action.textPost c (pipeline_text env o).1 ∧
        c.mentions = AllowedMentions.allPings ∧
        c.content = (fix_message_content_for_links env.content).1) ∧
    (pipeline_text env o).2.any Action.isSuccessfulRepost = (pipeline_text env o).1 ∧
    ((fix_message_content_for_links env.content).2 = false →
      pipeline_text env o = (false, [])) := by
  cases hch : (fix_message_content_for_links env.content).2 with
  | false =>
    have hp : pipeline_text env o = (false, []) := by
      unfold pipeline_text
      rw [if_neg (by simp [hch])]
    rw [hp]
    exact ⟨by simp, by simp, fun _ => rfl⟩
  | true =>
    have hp : pipeline_text env o =
        ((send_via_webhook_or_fallback env.manageWebhooks o.textSend
            (fix_message_content_for_links env.content).1 (some AllowedMentions.allPings)).1,
          (send_via_webhook_or_fallback env.manageWebhooks o.textSend
            (fix_message_content_for_links env.content).1
            (some AllowedMentions.allPings)).2.map
            (fun c => Action.textPost c
              (send_via_webhook_or_fallback env.manageWebhooks o.textSend
                (fix_message_content_for_links env.content).1
                (some AllowedMentions.allPings)).1)) := by
      unfold pipeline_text
      rw [if_pos hch]
    obtain ⟨c, hc, hm, hcont⟩ := send_via_shape env.manageWebhooks o.textSend
      (fix_message_content_for_links env.content).1 (some AllowedMentions.allPings)
    rw [hp, hc]
    refine ⟨?_, by simp [Action.isSuccessfulRepost],
      fun h => absurd h (by simp [hch])⟩
    intro a ha
    simp only [List.map_cons, List.map_nil, List.mem_singleton] at ha
    exact ⟨c, ha, by simpa using hm, hcont⟩

/-! ## Claim C1 -/

/-- C1 as stated is false: in a plain run where a Twitter link is rewritten
and reposted, the outgoing text repost carries an allowed-mentions setting
with roles and everyone enabled (`discord.AllowedMentions.all()`, src/bot.py
line 484). -/
theorem C1_counterexample :
    ((on_message envA oPlain fs0).1.filterMap Action.repostMentions).any
      (fun m => m.roles || m.everyone) = true := by decide

/-- C1 amended: every media-file repost carries
`AllowedMentions(users=True, roles=False, everyone=False)` — user pings only —
but every rewritten-text repost is sent with `AllowedMentions.all()`: users,
roles and everyone pings all enabled. -/
theorem C1_amended (env : MsgEnv) (o : Oracle) (fs : FS) (a : Action)
    (ha : a ∈ (on_message env o fs).1) :
    (∀ c ok, a = Action.mediaPost c ok → c.mentions = ⟨true, false, false⟩) ∧
    (∀ c ok, a = Action.textPost c ok → c.mentions = AllowedMentions.allPings) := by
  rcases on_message_guard_cases env o fs with ⟨heq, -⟩ | ⟨-, -, -, -, -, -, -, heq⟩
  · rw [heq] at ha
    simp only [List.mem_singleton] at ha
    subst ha
    exact ⟨(fun c ok h => nomatch h), (fun c ok h => nomatch h)⟩
  · rw [heq] at ha
    simp only [pipeline, List.append_assoc, List.mem_append] at ha
    rcases ha with h | h | h | h
    · obtain ⟨c, ok, rfl, hm⟩ := (pipeline_media_actions env o fs).1 a h
      refine ⟨fun c' ok' h' => ?_, (fun c' ok' h' => nomatch h')⟩
      injection h' with h1 h2
      rw [← h1]
      exact hm
    · obtain ⟨c, rfl, hm, -⟩ := (pipeline_text_actions env o).1 a h
      refine ⟨(fun c' ok' h' => nomatch h'), fun c' ok' h' => ?_⟩
      injection h' with h1 h2
      rw [← h1]
      exact hm
    · have hd : a = Action.deleteOriginal o.deleteOk := by
        by_cases hb : ((pipeline_media env o fs).1 || (pipeline_text env o).1) = true
        · rw [if_pos hb] at h
          simpa using h
        · rw [if_neg hb] at h
          simp at h
      subst hd
      exact ⟨(fun c ok h' => nomatch h'), (fun c ok h' => nomatch h')⟩
    · simp only [List.mem_singleton] at h
      subst h
      exact ⟨(fun c ok h' => nomatch h'), (fun c ok h' => nomatch h')⟩

/-- Witness for the amended C1: a concrete media repost (Instagram URL,
successful download) and a concrete text repost (Twitter URL) from full
`on_message` runs. -/
theorem C1_amended_witness :
    (SendCall.viaPlain
        "<@42> shared: <https://instagram.com/p/x>".toList
        ⟨true, false, false⟩).mentions = ⟨true, false, false⟩ ∧
    (SendCall.viaPlain
        "check this https://fxtwitter.com/user/status/123".toList
        AllowedMentions.allPings).mentions = AllowedMentions.allPings :=
  ⟨(C1_amended envI oMedia fs0
      (Action.mediaPost (SendCall.viaPlain
        "<@42> shared: <https://instagram.com/p/x>".toList ⟨true, false, false⟩) true)
      (by decide)).1 _ _ rfl,
   (C1_amended envA oPlain fs0
      (Action.textPost (SendCall.viaPlain
        "check this https://fxtwitter.com/user/status/123".toList
        AllowedMentions.allPings) true)
      (by decide)).2 _ _ rfl⟩

/-! ## Claim C5 -/

/-- C5: the `on_message` trace is a block of repost actions (and nothing
else), followed by exactly one delete attempt if and only if at least one of
those reposts succeeded (so never more than one delete, and always after all
reposts), followed by `process_commands`; and the outcome of the swallowed
delete call has no effect on anything else: the rest of the trace and the
final filesystem state are identical whether the delete succeeds or fails
(no rollback, no retry). -/
theorem C5_delete_semantics (env : MsgEnv) (o : Oracle) (fs : FS) :
    ∃ posts : List Action,
      (on_message env o fs).1 =
        posts ++
          (if posts.any Action.isSuccessfulRepost then [Action.deleteOriginal o.deleteOk]
          else []) ++ [Action.processCommands] ∧
      (∀ a ∈ posts, a.isRepost = true ∧ a.isDelete = false) ∧
      (∀ b : Bool,
        (on_message env ⟨o.media, o.textSend, b⟩ fs).1.map Action.stripDeleteFlag =
          (on_message env o fs).1.map Action.stripDeleteFlag ∧
        (on_message env ⟨o.media, o.textSend, b⟩ fs).2 = (on_message env o fs).2) := by
  rcases on_message_guard_cases env o fs with ⟨heq, hng⟩ |
    ⟨hg1, hg2, hg3, hg4, hg5, hg6, hg7, heq⟩
  · refine ⟨[], by simp [heq], by simp, ?_⟩
    intro b
    rcases on_message_guard_cases env ⟨o.media, o.textSend, b⟩ fs with ⟨heq', -⟩ |
      ⟨hg1, hg2, hg3, hg4, hg5, hg6, hg7, -⟩
    · rw [heq, heq']
      exact ⟨rfl, rfl⟩
    · exact absurd ⟨hg1, hg2, hg3, hg4, hg5, hg6, hg7⟩ hng
  · refine ⟨(pipeline_media env o fs).2.1 ++ (pipeline_text env o).2, ?_, ?_, ?_⟩
    · rw [heq]
      have hany : ((pipeline_media env o fs).2.1 ++ (pipeline_text env o).2).any
          Action.isSuccessfulRepost =
          ((pipeline_media env o fs).1 || (pipeline_text env o).1) := by
        rw [List.any_append, (pipeline_media_actions env o fs).2,
          (pipeline_text_actions env o).2.1]
      rw [hany]
      simp [pipeline, List.append_assoc]
    · intro a ha
      rcases List.mem_append.mp ha with h | h
      · obtain ⟨c, ok, rfl, -⟩ := (pipeline_media_actions env o fs).1 a h
        exact ⟨rfl, rfl⟩
      · obtain ⟨c, rfl, -, -⟩ := (pipeline_text_actions env o).1 a h
        exact ⟨rfl, rfl⟩
    · intro b
      rcases on_message_guard_cases env ⟨o.media, o.textSend, b⟩ fs with ⟨-, hng⟩ |
        ⟨-, -, -, -, -, -, -, heq'⟩
      · exact absurd ⟨hg1, hg2, hg3, hg4, hg5, hg6, hg7⟩ hng
      · rw [heq, heq']
        have hm : pipeline_media env ⟨o.media, o.textSend, b⟩ fs =
            pipeline_media env o fs := rfl
        have ht : pipeline_text env ⟨o.media, o.textSend, b⟩ = pipeline_text env o := rfl
        constructor
        · simp only [pipeline, hm, ht, List.map_append]
          by_cases hb : ((pipeline_media env o fs).1 || (pipeline_text env o).1) = true
          · simp [hb, Action.stripDeleteFlag]
          · simp [hb]
        · simp only [pipeline, hm, ht]

/-! ## Reconstruction: the scan pieces concatenate back to the text -/

/-- A successful regex match is a non-empty prefix of the remaining text. -/
theorem urlMatchAt_prefix {p : Bool} {cs url : List Char}
    (h : urlMatchAt p cs = some url) : url <+: cs ∧ url ≠ [] := by
  unfold urlMatchAt at h
  split at h
  · exact absurd h (by simp)
  · cases hs : schemeAt cs with
    | none => rw [hs] at h; exact absurd h (by simp)
    | some n =>
      rw [hs] at h
      simp only at h
      split at h
      · exact absurd h (by simp)
      · rename_i hbody
        injection h with h
        subst h
        constructor
        · calc cs.take n ++ (cs.drop n).takeWhile (fun c => !isStopChar c)
              <+: cs.take n ++ cs.drop n :=
                (List.prefix_append_right_inj _).mpr (List.takeWhile_prefix _)
            _ = cs := List.take_append_drop n cs
        · intro hnil
          rw [List.append_eq_nil] at hnil
          simp only [List.isEmpty_iff] at hbody
          exact hbody hnil.2

/-- The scan pieces, joined back together (matches kept verbatim), give back
the text. -/
theorem scanPieces_join :
    ∀ (fuel : Nat) (p : Bool) (cs : List Char), cs.length ≤ fuel →
      (scanPieces fuel p cs).flatMap
        (fun pc => match pc with | Sum.inl c => [c] | Sum.inr u => u) = cs
  | 0, _, cs, h => by
    have : cs = [] := List.length_eq_zero.mp (Nat.le_zero.mp h)
    subst this
    rfl
  | fuel + 1, p, [], _ => rfl
  | fuel + 1, p, c :: cs, h => by
    cases hm : urlMatchAt p (c :: cs) with
    | some url =>
      obtain ⟨hpre, hne⟩ := urlMatchAt_prefix hm
      have hlen : 0 < url.length := List.length_pos.mpr hne
      have hdl : ((c :: cs).drop url.length).length ≤ fuel := by
        rw [List.length_drop]
        simp only [List.length_cons] at h ⊢
        omega
      have ih := scanPieces_join fuel (url.getLast? == some '<')
        ((c :: cs).drop url.length) hdl
      simp only [scanPieces, hm, List.flatMap_cons, ih]
      nth_rewrite 1 [List.prefix_iff_eq_take.mp hpre]
      exact List.take_append_drop _ _
    | none =>
      have ih := scanPieces_join fuel (c == '<') cs (by
        simp only [List.length_cons] at h
        omega)
      simp only [scanPieces, hm, List.flatMap_cons, ih]
      rfl

theorem flatMap_repl_eq_join (repl : List Char → List Char) :
    ∀ l : List (Char ⊕ List Char), (∀ u, Sum.inr u ∈ l → repl u = u) →
      l.flatMap (fun pc => match pc with | Sum.inl c => [c] | Sum.inr u => repl u) =
        l.flatMap (fun pc => match pc with | Sum.inl c => [c] | Sum.inr u => u)
  | [], _ => rfl
  | pc :: l, h => by
    simp only [List.flatMap_cons]
    rw [flatMap_repl_eq_join repl l (fun u hu => h u (List.mem_cons_of_mem _ hu))]
    cases pc with
    | inl c => rfl
    | inr u =>
      show repl u ++ _ = u ++ _
      rw [h u (List.mem_cons_self _ _)]

/-- If every scanned URL is left unchanged by the replacement callback, the
substituted text is the original text. -/
theorem subUrls_eq_of_fixed (repl : List Char → List Char) (content : List Char)
    (h : ∀ u ∈ scanUrls content, repl u = u) :
    subUrls repl content = content := by
  unfold subUrls
  rw [flatMap_repl_eq_join repl _
      (fun u hu => h u (List.mem_filterMap.mpr ⟨Sum.inr u, hu, rfl⟩)),
    scanPieces_join content.length false content (Nat.le_refl _)]

/-! ## Claim C8 -/

/-- C8: the changed flag is true iff at least one scanned URL's substitution
changed it; when the flag is false the rewritten text equals the original
text, no text repost appears in the trace, and a deletion can only have been
triggered by a successful media repost; concretely (scenario B), a message
whose only URL is `https://fxtwitter.com/user/status/123` is not rewritten
and its flag is false. -/
theorem C8_changed_flag (content : List Char) (env : MsgEnv) (o : Oracle) (fs : FS) :
    ((fix_message_content_for_links content).2 = true ↔
      ∃ u ∈ scanUrls content, fix_repl u ≠ u) ∧
    ((fix_message_content_for_links content).2 = false →
      (fix_message_content_for_links content).1 = content) ∧
    ((fix_message_content_for_links env.content).2 = false →
      (∀ c ok, Action.textPost c ok ∉ (on_message env o fs).1) ∧
      ((∃ b, Action.deleteOriginal b ∈ (on_message env o fs).1) →
        ∃ c, Action.mediaPost c true ∈ (on_message env o fs).1)) ∧
    fix_message_content_for_links "https://fxtwitter.com/user/status/123".toList =
      ("https://fxtwitter.com/user/status/123".toList, false) := by
  refine ⟨?_, ?_, ?_, by decide⟩
  · simp [fix_message_content_for_links]
  · intro h2
    simp only [fix_message_content_for_links] at h2 ⊢
    apply subUrls_eq_of_fixed
    intro u hu
    have h3 := List.any_eq_false.mp h2 u hu
    simpa using h3
  · intro hch
    have htext := (pipeline_text_actions env o).2.2 hch
    rcases on_message_guard_cases env o fs with ⟨heq, -⟩ | ⟨-, -, -, -, -, -, -, heq⟩
    · rw [heq]
      constructor
      · intro c ok hmem
        simp at hmem
      · rintro ⟨b, hb⟩
        simp at hb
    · constructor
      · intro c ok hmem
        rw [heq] at hmem
        simp only [pipeline] at hmem
        rcases List.mem_append.mp hmem with hmem | h
        case inr => simp at h
        rcases List.mem_append.mp hmem with hmem | h
        case inr =>
          by_cases hcb : ((pipeline_media env o fs).1 || (pipeline_text env o).1) = true
          · rw [if_pos hcb] at h
            simp at h
          · rw [if_neg hcb] at h
            simp at h
        rcases List.mem_append.mp hmem with h | h
        · obtain ⟨c', ok', heq', -⟩ := (pipeline_media_actions env o fs).1 _ h
          cases heq'
        · rw [htext] at h
          simp at h
      · rintro ⟨b, hb⟩
        rw [heq] at hb
        simp only [pipeline] at hb
        rcases List.mem_append.mp hb with hb | h
        case inr => simp at h
        rcases List.mem_append.mp hb with hb | h
        case inl =>
          rcases List.mem_append.mp hb with h | h
          · obtain ⟨c', ok', heq', -⟩ := (pipeline_media_actions env o fs).1 _ h
            cases heq'
          · rw [htext] at h
            simp at h
        by_cases hcond : ((pipeline_media env o fs).1 || (pipeline_text env o).1) = true
        · have hm1 : (pipeline_media env o fs).1 = true := by
            rw [htext] at hcond
            simpa using hcond
          have hany := (pipeline_media_actions env o fs).2
          rw [hm1] at hany
          obtain ⟨a, hamem, hsucc⟩ := List.any_eq_true.mp hany
          obtain ⟨c', ok', rfl, -⟩ := (pipeline_media_actions env o fs).1 _ hamem
          have hok : ok' = true := by
            simpa [Action.isSuccessfulRepost] using hsucc
          subst hok
          refine ⟨c', ?_⟩
          rw [heq]
          simp only [pipeline]
          exact List.mem_append.mpr (Or.inl (List.mem_append.mpr (Or.inl
            (List.mem_append.mpr (Or.inl hamem)))))
        · rw [if_neg hcond] at h
          simp at h

/-- Witness for C8 — scenario B: an already-fixed link is not rewritten and
no text repost for it appears in the trace. -/
theorem C8_changed_flag_witness :
    (fix_message_content_for_links "https://fxtwitter.com/user/status/123".toList).1 =
      "https://fxtwitter.com/user/status/123".toList ∧
    Action.textPost
        (SendCall.viaPlain "https://fxtwitter.com/user/status/123".toList
          AllowedMentions.allPings) true ∉
      (on_message envB oPlain fs0).1 :=
  ⟨(C8_changed_flag "https://fxtwitter.com/user/status/123".toList envB oPlain fs0).2.1
      (by decide),
   ((C8_changed_flag "https://fxtwitter.com/user/status/123".toList envB oPlain
      fs0).2.2.1 (by decide)).1 _ _⟩

/-! ## Toolbox for the scanner equivalence (claim C7) -/

theorem takeWhile_append_all {p : Char → Bool} :
    ∀ {a : List Char} (b : List Char), (∀ x ∈ a, p x = true) →
      (a ++ b).takeWhile p = a ++ b.takeWhile p
  | [], _, _ => rfl
  | x :: a, b, h => by
    have hx : p x = true := h x (List.mem_cons_self _ _)
    simp only [List.cons_append, List.takeWhile_cons, hx, if_true]
    rw [takeWhile_append_all b (fun y hy => h y (List.mem_cons_of_mem _ hy))]

theorem takeWhile_boundary {p : Char → Bool} :
    ∀ l : List Char, (l.takeWhile p).length = l.length ∨
      ∃ c, l.get? (l.takeWhile p).length = some c ∧ p c = false
  | [] => Or.inl rfl
  | x :: l => by
    cases hx : p x with
    | true =>
      simp only [List.takeWhile_cons, hx, if_true, List.length_cons]
      rcases takeWhile_boundary l with h | ⟨c, hc, hpc⟩
      · exact Or.inl (by rw [h])
      · exact Or.inr ⟨c, by simpa using hc, hpc⟩
    | false =>
      refine Or.inr ⟨x, ?_, hx⟩
      simp [List.takeWhile_cons, hx]

theorem takeWhile_get_eq {p : Char → Bool} (l : List Char) {m : Nat}
    (hm : m < (l.takeWhile p).length) :
    l.get? m = (l.takeWhile p).get? m := by
  rw [List.prefix_iff_eq_take.mp (List.takeWhile_prefix p (l := l))]
  exact (List.get?_take hm).symm

/-- `specStopFree` in terms of the characters it covers. -/
theorem specStopFree_iff (t : List Char) (a b : Nat) :
    specStopFree t a b = true ↔
      ∀ m, a ≤ m → m < b → ∀ c, t.get? m = some c → isStopChar c = false := by
  unfold specStopFree
  rw [List.all_eq_true]
  constructor
  · intro h m ham hmb c hc
    have hidx : m - a < b - a := by omega
    have hget : ((t.drop a).take (b - a)).get? (m - a) = some c := by
      rw [List.get?_take hidx, List.get?_drop]
      rw [show a + (m - a) = m by omega]
      exact hc
    have hmem : c ∈ (t.drop a).take (b - a) := List.get?_mem hget
    have := h c hmem
    simpa using this
  · intro h x hx
    obtain ⟨m', hm'⟩ := List.get?_of_mem hx
    obtain ⟨hlt0, -⟩ := List.get?_eq_some.mp hm'
    have hlt : m' < b - a :=
      Nat.lt_of_lt_of_le hlt0 (by simpa using List.length_take_le (b - a) (t.drop a))
    have hdrop : (t.drop a).get? m' = some x := by
      rw [← List.get?_take hlt]
      exact hm'
    have hget : t.get? (a + m') = some x := by
      rw [← List.get?_drop]
      exact hdrop
    have hres := h (a + m') (by omega) (by omega) x hget
    simpa using hres

theorem schemeAt_cases {cs : List Char} {n : Nat} (h : schemeAt cs = some n) :
    (cs.take n = httpsScheme ∧ n = 8) ∨ (cs.take n = httpScheme ∧ n = 7) := by
  unfold schemeAt at h
  split at h
  · rename_i hp
    injection h with h
    subst h
    exact Or.inl
      ⟨(List.prefix_iff_eq_take.mp (List.isPrefixOf_iff_prefix.mp hp)).symm, by decide⟩
  · split at h
    · rename_i hp
      injection h with h
      subst h
      exact Or.inr
        ⟨(List.prefix_iff_eq_take.mp (List.isPrefixOf_iff_prefix.mp hp)).symm, by decide⟩
    · exact absurd h (by simp)

theorem schemeAt_bounds {cs : List Char} {n : Nat} (h : schemeAt cs = some n) :
    0 < n ∧ n ≤ cs.length := by
  rcases schemeAt_cases h with ⟨he, hn⟩ | ⟨he, hn⟩ <;> subst hn
  · have hl : (cs.take 8).length = 8 := by rw [he]; decide
    rw [List.length_take] at hl
    omega
  · have hl : (cs.take 7).length = 7 := by rw [he]; decide
    rw [List.length_take] at hl
    omega

theorem scheme_all_nonstop {cs : List Char} {n : Nat} (h : schemeAt cs = some n) :
    ∀ x ∈ cs.take n, (!isStopChar x) = true := by
  rcases schemeAt_cases h with ⟨he, -⟩ | ⟨he, -⟩ <;> rw [he] <;> decide

/-- Decomposition of a candidate substring: the scheme, then the greedy
body. -/
theorem specCandStr_decomp {t : List Char} {k n : Nat}
    (h : schemeAt (t.drop k) = some n) :
    specCandStr t k =
      (t.drop k).take n ++ (t.drop (k + n)).takeWhile (fun c => !isStopChar c) := by
  unfold specCandStr
  conv_lhs =>
    rw [show t.drop k = (t.drop k).take n ++ t.drop (k + n) from by
      rw [← List.drop_drop]
      exact (List.take_append_drop n (t.drop k)).symm]
  exact takeWhile_append_all _ (scheme_all_nonstop h)

/-- The lookbehind test agrees with the threaded scanning state. -/
theorem specLookbehindOk_eq (t : List Char) (k : Nat) :
    specLookbehindOk t k = !prevLtAt t k := by
  unfold specLookbehindOk prevLtAt
  cases (k == 0) <;> cases (t.get? (k - 1) == some '<') <;> rfl

/-- No match at the current position means no candidate starts there, and a
match is exactly the candidate substring. -/
theorem urlMatchAt_spec (t : List Char) (k : Nat) :
    (urlMatchAt (prevLtAt t k) (t.drop k) = none ↔ specCandAt t k = false) ∧
    (∀ url, urlMatchAt (prevLtAt t k) (t.drop k) = some url →
      specCandAt t k = true ∧ url = specCandStr t k) := by
  unfold urlMatchAt specCandAt
  cases hp : prevLtAt t k with
  | true =>
    have hlb : specLookbehindOk t k = false := by
      rw [specLookbehindOk_eq, hp]
      rfl
    simp only [if_true, hlb]
    constructor
    · cases hs : schemeAt (t.drop k) <;> simp
    · intro url hurl
      exact absurd hurl (by simp)
  | false =>
    have hlb : specLookbehindOk t k = true := by
      rw [specLookbehindOk_eq, hp]
      rfl
    simp only [Bool.false_eq_true, if_false, hlb, Bool.true_and]
    cases hs : schemeAt (t.drop k) with
    | none => simp
    | some n =>
      simp only [List.drop_drop]
      cases hb : ((t.drop (k + n)).takeWhile (fun c => !isStopChar c)).isEmpty with
      | true =>
        constructor
        · simp
        · intro url hurl
          rw [if_pos rfl] at hurl
          cases hurl
      | false =>
        constructor
        · simp
        · intro url hurl
          rw [if_neg (by simp)] at hurl
          injection hurl with hurl
          subst hurl
          exact ⟨by simp, (specCandStr_decomp hs).symm⟩

theorem specEnd_ge (t : List Char) (k : Nat) : k ≤ specEnd t k :=
  Nat.le_add_right _ _

theorem specEnd_le_length (t : List Char) (k : Nat) (hk : k ≤ t.length) :
    specEnd t k ≤ t.length := by
  unfold specEnd specCandStr
  have h1 : ((t.drop k).takeWhile (fun c => !isStopChar c)).length ≤ (t.drop k).length :=
    (List.takeWhile_prefix _).length_le
  rw [List.length_drop] at h1
  omega

/-- Every character inside a candidate substring is a non-stop character. -/
theorem candStr_stopFree (t : List Char) (k : Nat) :
    specStopFree t k (specEnd t k) = true := by
  rw [specStopFree_iff]
  intro m hkm hme c hc
  unfold specEnd at hme
  have hidx : m - k < (specCandStr t k).length := by omega
  have hget : (specCandStr t k).get? (m - k) = some c := by
    unfold specCandStr at hidx ⊢
    rw [← takeWhile_get_eq _ hidx, List.get?_drop]
    rw [show k + (m - k) = m by omega]
    exact hc
  have hmem : c ∈ specCandStr t k := List.get?_mem hget
  have hp := List.mem_takeWhile_imp hmem
  simpa using hp

/-- A candidate substring ends at the end of the text or just before a stop
character. -/
theorem candEnd_boundary (t : List Char) (k : Nat) (hk : k ≤ t.length) :
    specEnd t k = t.length ∨
      ∃ c, t.get? (specEnd t k) = some c ∧ isStopChar c = true := by
  rcases takeWhile_boundary (p := fun c => !isStopChar c) (t.drop k) with h | ⟨c, hc, hpc⟩
  · left
    unfold specEnd specCandStr
    rw [h, List.length_drop]
    omega
  · right
    refine ⟨c, ?_, by simpa using hpc⟩
    unfold specEnd specCandStr
    rw [← List.get?_drop]
    exact hc

theorem cand_lt_length {t : List Char} {i : Nat} (h : specCandAt t i = true) :
    i < t.length := by
  unfold specCandAt at h
  cases hs : schemeAt (t.drop i) with
  | none => rw [hs] at h; cases h
  | some n =>
    obtain ⟨hn, hle⟩ := schemeAt_bounds hs
    rw [List.length_drop] at hle
    omega

/-- Two candidate starts in the same stop-free run share their end. -/
theorem specEnd_eq_of_stopFree (t : List Char) {j i : Nat} (hji : j ≤ i)
    (hi : i ≤ t.length) (h : specStopFree t j i = true) :
    specEnd t j = specEnd t i := by
  have h2 : (t.drop j).drop (i - j) = t.drop i := by
    rw [List.drop_drop]
    rw [show j + (i - j) = i by omega]
  have hsplit : t.drop j = (t.drop j).take (i - j) ++ t.drop i := by
    rw [← h2]
    exact (List.take_append_drop _ _).symm
  have hall : ∀ x ∈ (t.drop j).take (i - j), (!isStopChar x) = true := by
    intro x hx
    obtain ⟨m', hm'⟩ := List.get?_of_mem hx
    obtain ⟨hlt0, -⟩ := List.get?_eq_some.mp hm'
    have hlt : m' < i - j :=
      Nat.lt_of_lt_of_le hlt0 (by simpa using List.length_take_le (i - j) (t.drop j))
    have hget : t.get? (j + m') = some x := by
      rw [← List.get?_drop, ← List.get?_take hlt]
      exact hm'
    have := (specStopFree_iff t j i).mp h (j + m') (by omega) (by omega) x hget
    simpa using this
  have hstr : specCandStr t j = (t.drop j).take (i - j) ++ specCandStr t i := by
    unfold specCandStr
    conv_lhs => rw [hsplit]
    exact takeWhile_append_all _ hall
  have hlenA : ((t.drop j).take (i - j)).length = i - j := by
    rw [List.length_take, List.length_drop]
    omega
  unfold specEnd
  rw [hstr, List.length_append, hlenA]
  omega

/-- A stop character between `j` and `i` forces the candidate at `j` to end
before `i`. -/
theorem specEnd_lt_of_not_stopFree (t : List Char) {j i : Nat}
    (h : specStopFree t j i = false) : specEnd t j < i := by
  have hne : ¬ specStopFree t j i = true := by simp [h]
  rw [specStopFree_iff] at hne
  push_neg at hne
  obtain ⟨m, hjm, hmi, c, hget, hstop⟩ := hne
  have hstop' : isStopChar c = true := by
    cases hsc : isStopChar c
    · exact absurd hsc hstop
    · rfl
  have hlen : (specCandStr t j).length ≤ m - j := by
    by_contra hcon
    push_neg at hcon
    have hget2 : (specCandStr t j).get? (m - j) = some c := by
      unfold specCandStr at hcon ⊢
      rw [← takeWhile_get_eq _ hcon, List.get?_drop]
      rw [show j + (m - j) = m by omega]
      exact hget
    have hmem : c ∈ specCandStr t j := List.get?_mem hget2
    have hp := List.mem_takeWhile_imp hmem
    rw [hstop'] at hp
    cases hp
  unfold specEnd
  omega

/-- For a candidate, maximality is exactly "no earlier candidate in the same
stop-free run". -/
theorem specMaximalAt_iff {t : List Char} {i : Nat} (h : specCandAt t i = true) :
    specMaximalAt t i = true ↔
      ∀ j, j < i → ¬(specCandAt t j = true ∧ specStopFree t j i = true) := by
  have hilen : i < t.length := cand_lt_length h
  unfold specMaximalAt
  rw [h, Bool.true_and, List.all_eq_true]
  constructor
  · intro hall j hj ⟨hcj, hsf⟩
    have := hall j (List.mem_range.mpr hj)
    rw [hcj, Bool.true_and] at this
    have hend : specEnd t i = specEnd t j :=
      (specEnd_eq_of_stopFree t (Nat.le_of_lt hj) (Nat.le_of_lt hilen) hsf).symm
    rw [hend] at this
    simp at this
  · intro hrun j hjmem
    have hj : j < i := List.mem_range.mp hjmem
    cases hcj : specCandAt t j with
    | false => simp
    | true =>
      cases hsf : specStopFree t j i with
      | true => exact absurd ⟨hcj, hsf⟩ (hrun j hj)
      | false =>
        have hlt : specEnd t j < i := specEnd_lt_of_not_stopFree t hsf
        have hge : i ≤ specEnd t i := specEnd_ge t i
        simp only [Bool.true_and]
        rw [decide_eq_false (by omega : ¬ specEnd t i ≤ specEnd t j)]
        rfl

/-- One unfolding step of the scanning loop: a successful match. -/
theorem scanPieces_eq_some (fuel : Nat) (p : Bool) (c : Char) (cs : List Char)
    (url : List Char) (hm : urlMatchAt p (c :: cs) = some url) :
    scanPieces (fuel + 1) p (c :: cs) =
      Sum.inr url ::
        scanPieces fuel (url.getLast? == some '<') ((c :: cs).drop url.length) := by
  simp only [scanPieces, hm]

/-- One unfolding step of the scanning loop: no match, advance one
character. -/
theorem scanPieces_eq_none (fuel : Nat) (p : Bool) (c : Char) (cs : List Char)
    (hm : urlMatchAt p (c :: cs) = none) :
    scanPieces (fuel + 1) p (c :: cs) = Sum.inl c :: scanPieces fuel (c == '<') cs := by
  simp only [scanPieces, hm]

/-- A position holding a stop character cannot start a candidate (schemes
start with `h`). -/
theorem stop_not_cand {t : List Char} {m : Nat} {c : Char} (hget : t.get? m = some c)
    (hstop : isStopChar c = true) : specCandAt t m = false := by
  cases hc : specCandAt t m with
  | false => rfl
  | true =>
    exfalso
    unfold specCandAt at hc
    cases hs : schemeAt (t.drop m) with
    | none => rw [hs] at hc; cases hc
    | some n =>
      obtain ⟨hn, -⟩ := schemeAt_bounds hs
      have hhead : (t.drop m).get? 0 = some 'h' := by
        rcases schemeAt_cases hs with ⟨he, hn8⟩ | ⟨he, hn7⟩
        · rw [← List.get?_take (by omega : 0 < n), he]
          rfl
        · rw [← List.get?_take (by omega : 0 < n), he]
          rfl
      rw [List.get?_drop, Nat.add_zero] at hhead
      rw [hget] at hhead
      injection hhead with hhead
      rw [hhead] at hstop
      exact absurd hstop (by decide)

/-- Sub-interval monotonicity of the stop-free predicate. -/
theorem specStopFree_mono {t : List Char} {a b a' b' : Nat}
    (h : specStopFree t a b = true) (ha : a ≤ a') (hb : b' ≤ b) :
    specStopFree t a' b' = true := by
  rw [specStopFree_iff] at h ⊢
  intro m hm1 hm2 c hc
  exact h m (by omega) (by omega) c hc

/-- Inside the candidate at `k`, later positions are never maximal. -/
theorem mid_not_maximal {t : List Char} {k : Nat} (hcand : specCandAt t k = true)
    {i : Nat} (hki : k < i) (hie : i < specEnd t k) : specMaximalAt t i = false := by
  cases hci : specCandAt t i with
  | false =>
    unfold specMaximalAt
    rw [hci]
    rfl
  | true =>
    cases hmax : specMaximalAt t i with
    | false => rfl
    | true =>
      exfalso
      have hsf : specStopFree t k i = true :=
        specStopFree_mono (candStr_stopFree t k) (Nat.le_refl k) (Nat.le_of_lt hie)
      exact (specMaximalAt_iff hci).mp hmax k hki ⟨hcand, hsf⟩

/-- Splitting the spec-side filtered range at a maximal candidate `k` whose
successors up to `e` are not maximal. -/
theorem filter_range_split (t : List Char) (k e : Nat) (hk : k < t.length)
    (he : k < e) (hmaxk : specMaximalAt t k = true)
    (hmid : ∀ i, k < i → i < e → specMaximalAt t i = false) :
    (List.range t.length).filter (fun i => decide (k ≤ i) && specMaximalAt t i) =
      k :: (List.range t.length).filter (fun i => decide (e ≤ i) && specMaximalAt t i) := by
  have hsplit : List.range t.length =
      (List.range' 0 k ++ [k]) ++ List.range' (k + 1) (t.length - (k + 1)) := by
    have h1 := List.range'_append 0 k 1 1
    have h2 := List.range'_append 0 (k + 1) (t.length - (k + 1)) 1
    simp only [Nat.mul_one, Nat.zero_add, Nat.one_mul] at h1 h2
    rw [show (t.length - (k + 1)) + (k + 1) = t.length from by omega] at h2
    have h1' : List.range' 0 (k + 1) = List.range' 0 k ++ [k] := by
      rw [show k + 1 = 1 + k from by omega, ← h1]
      rfl
    rw [List.range_eq_range', ← h2, h1']
  rw [hsplit]
  rw [List.filter_append, List.filter_append, List.filter_append, List.filter_append]
  have hlow : ∀ (f : Nat → Bool), (∀ i, i < k → f i = false) →
      (List.range' 0 k).filter f = [] := by
    intro f hf
    rw [List.filter_eq_nil]
    intro a ha
    obtain ⟨-, ha2⟩ := List.mem_range'_1.mp ha
    simp [hf a (by omega)]
  have hP0 : (List.range' 0 k).filter
      (fun i => decide (k ≤ i) && specMaximalAt t i) = [] := by
    apply hlow
    intro i hi
    rw [decide_eq_false (by omega : ¬ k ≤ i)]
    rfl
  have hQ0 : (List.range' 0 k).filter
      (fun i => decide (e ≤ i) && specMaximalAt t i) = [] := by
    apply hlow
    intro i hi
    rw [decide_eq_false (by omega : ¬ e ≤ i)]
    rfl
  have hPk : ([k]).filter (fun i => decide (k ≤ i) && specMaximalAt t i) = [k] := by
    simp [hmaxk]
  have hQk : ([k]).filter (fun i => decide (e ≤ i) && specMaximalAt t i) = [] := by
    simp [decide_eq_false (by omega : ¬ e ≤ k)]
  have htail : (List.range' (k + 1) (t.length - (k + 1))).filter
      (fun i => decide (k ≤ i) && specMaximalAt t i) =
      (List.range' (k + 1) (t.length - (k + 1))).filter
      (fun i => decide (e ≤ i) && specMaximalAt t i) := by
    apply List.filter_congr
    intro i hi
    obtain ⟨hi1, -⟩ := List.mem_range'_1.mp hi
    rw [decide_eq_true (by omega : k ≤ i)]
    by_cases hee : e ≤ i
    · rw [decide_eq_true hee]
    · rw [decide_eq_false hee, hmid i (by omega) (by omega)]
      rfl
  rw [hP0, hQ0, hPk, hQk, htail]
  rfl

/-- Dropping a non-candidate position from the spec-side filter. -/
theorem filter_range_step_none (t : List Char) (k : Nat)
    (hcand : specCandAt t k = false) :
    (List.range t.length).filter (fun i => decide (k ≤ i) && specMaximalAt t i) =
      (List.range t.length).filter (fun i => decide (k + 1 ≤ i) && specMaximalAt t i) := by
  apply List.filter_congr
  intro i hi
  by_cases hik : i = k
  · subst hik
    have hmax : specMaximalAt t i = false := by
      unfold specMaximalAt
      rw [hcand]
      rfl
    rw [hmax]
    simp
  · by_cases hk1 : k + 1 ≤ i
    · rw [decide_eq_true hk1, decide_eq_true (by omega : k ≤ i)]
    · rw [decide_eq_false hk1, decide_eq_false (by omega : ¬ k ≤ i)]

/-- The scanning loop started at position `k` yields exactly the maximal
candidates at positions `≥ k`, provided no candidate before `k` reaches
across `k` inside a stop-free run. -/
theorem scanPieces_eq_spec (t : List Char) :
    ∀ (fuel k : Nat), t.length - k ≤ fuel → k ≤ t.length → noEarlierCand t k →
      (scanPieces fuel (prevLtAt t k) (t.drop k)).filterMap
        (fun pc => match pc with | Sum.inl _ => none | Sum.inr u => some u) =
      ((List.range t.length).filter
        (fun i => decide (k ≤ i) && specMaximalAt t i)).map (specCandStr t)
  | 0, k, hfuel, hk, _ => by
    have hkl : k = t.length := by omega
    subst hkl
    rw [List.drop_length]
    have hfil : (List.range t.length).filter
        (fun i => decide (t.length ≤ i) && specMaximalAt t i) = [] := by
      rw [List.filter_eq_nil]
      intro i hi
      have hi' := List.mem_range.mp hi
      rw [decide_eq_false (by omega : ¬ t.length ≤ i)]
      simp
    rw [hfil]
    rfl
  | fuel + 1, k, hfuel, hk, hinv => by
    rcases Nat.lt_or_ge k t.length with hkl | hkl
    case inr =>
      have hkeq : k = t.length := by omega
      subst hkeq
      rw [List.drop_length]
      have hfil : (List.range t.length).filter
          (fun i => decide (t.length ≤ i) && specMaximalAt t i) = [] := by
        rw [List.filter_eq_nil]
        intro i hi
        have hi' := List.mem_range.mp hi
        rw [decide_eq_false (by omega : ¬ t.length ≤ i)]
        simp
      rw [hfil]
      rfl
    case inl =>
      obtain ⟨c0, cs0, hcons⟩ : ∃ c0 cs0, t.drop k = c0 :: cs0 := by
        cases hdk : t.drop k with
        | nil =>
          exfalso
          have := congrArg List.length hdk
          rw [List.length_drop] at this
          simp at this
          omega
        | cons a b => exact ⟨a, b, rfl⟩
      have hget0 : c0 = t.get ⟨k, hkl⟩ ∧ cs0 = t.drop (k + 1) := by
        have hh := (List.drop_eq_get_cons hkl).symm.trans hcons
        injection hh with hh1 hh2
        exact ⟨hh1.symm, hh2.symm⟩
      cases hm : urlMatchAt (prevLtAt t k) (t.drop k) with
      | none =>
        have hcand : specCandAt t k = false := (urlMatchAt_spec t k).1.mp hm
        rw [hcons] at hm
        rw [hcons, scanPieces_eq_none fuel (prevLtAt t k) c0 cs0 hm]
        rw [List.filterMap_cons]
        have hprev : (c0 == '<') = prevLtAt t (k + 1) := by
          rw [hget0.1]
          unfold prevLtAt
          rw [show (k + 1) - 1 = k from rfl, List.get?_eq_get hkl]
          rfl
        rw [hget0.2] at *
        rw [hprev]
        have ihinv : noEarlierCand t (k + 1) := by
          intro i hi hci j hj
          rcases Nat.lt_or_ge j k with hjk | hjk
          · exact hinv i (by omega) hci j hjk
          · have hjeq : j = k := by omega
            subst hjeq
            rintro ⟨hcj, -⟩
            rw [hcand] at hcj
            cases hcj
        rw [scanPieces_eq_spec t fuel (k + 1) (by omega) (by omega) ihinv]
        rw [filter_range_step_none t k hcand]
      | some url =>
        obtain ⟨hcand, hurl⟩ := (urlMatchAt_spec t k).2 url hm
        subst hurl
        obtain ⟨hpre, hne2⟩ := urlMatchAt_prefix hm
        have hlenpos : 0 < (specCandStr t k).length := List.length_pos.mpr hne2
        have hespec : specEnd t k = k + (specCandStr t k).length := rfl
        have helen : specEnd t k ≤ t.length := specEnd_le_length t k hk
        have hke : k < specEnd t k := by omega
        rw [hcons] at hm
        rw [hcons, scanPieces_eq_some fuel (prevLtAt t k) c0 cs0 _ hm, ← hcons]
        rw [List.filterMap_cons]
        have hdrop2 : (t.drop k).drop (specCandStr t k).length = t.drop (specEnd t k) := by
          rw [List.drop_drop]
          rfl
        have hlast : ((specCandStr t k).getLast? == some '<') =
            prevLtAt t (specEnd t k) := by
          have h1 : (t.drop k).get? ((specCandStr t k).length - 1) =
              (specCandStr t k).get? ((specCandStr t k).length - 1) :=
            takeWhile_get_eq (t.drop k) (Nat.sub_lt hlenpos Nat.one_pos)
          have hgl : (specCandStr t k).getLast? = t.get? (specEnd t k - 1) := by
            rw [List.getLast?_eq_get?, ← h1, List.get?_drop]
            congr 1
            unfold specEnd
            omega
          rw [hgl]
          unfold prevLtAt
          rw [beq_eq_false_iff_ne.mpr (by omega : specEnd t k ≠ 0)]
          rfl
        rw [hdrop2, hlast]
        have hinv2 : noEarlierCand t (specEnd t k) := by
          intro i hi hci j hj hconj
          obtain ⟨hcj, hsf⟩ := hconj
          rcases Nat.lt_or_ge j k with hjk | hjk
          · exact hinv i (by omega) hci j hjk ⟨hcj, hsf⟩
          · have hil : i < t.length := cand_lt_length hci
            have hie : specEnd t k < i := by
              rcases Nat.lt_or_ge (specEnd t k) i with h' | h'
              · exact h'
              · exfalso
                have hieq : i = specEnd t k := by omega
                subst hieq
                rcases candEnd_boundary t k hk with hb | ⟨c, hgc, hsc⟩
                · omega
                · rw [stop_not_cand hgc hsc] at hci
                  cases hci
            rcases candEnd_boundary t k hk with hb | ⟨c, hgc, hsc⟩
            · omega
            · have hns := (specStopFree_iff t j i).mp hsf (specEnd t k)
                (by omega) (by omega) c hgc
              rw [hsc] at hns
              cases hns
        rw [scanPieces_eq_spec t fuel (specEnd t k) (by omega) (by omega) hinv2]
        have hmaxk : specMaximalAt t k = true := by
          rw [specMaximalAt_iff hcand]
          intro j hj
          exact hinv k (Nat.le_refl k) hcand j hj
        rw [filter_range_split t k (specEnd t k) hkl hke hmaxk
          (fun i h1 h2 => mid_not_maximal hcand h1 h2)]
        rw [List.map_cons]

/-! ## Claim C7 -/

/-- C7: for every message text, the URL scanner yields exactly the maximal
candidate substrings — the substrings that start with `http://` or
`https://`, are not immediately preceded by `<` (so a URL wrapped as `<...>`
is never yielded), and extend to the next whitespace or `>` character, with
at least one character after the scheme, and that are not contained in the
span of an earlier such candidate — in the order they appear in the text. -/
theorem C7_scanner_exact (t : List Char) : scanUrls t = specUrls t := by
  have h0 : noEarlierCand t 0 := by
    intro i hi hci j hj
    exact absurd hj (Nat.not_lt_zero j)
  have h := scanPieces_eq_spec t t.length 0 (by omega) (Nat.zero_le _) h0
  unfold scanUrls specUrls
  have hpl : prevLtAt t 0 = false := rfl
  rw [hpl] at h
  rw [show t.drop 0 = t from List.drop_zero t] at h
  rw [h]
  congr 1
  apply List.filter_congr
  intro i hi
  rw [decide_eq_true (Nat.zero_le i)]
  rw [Bool.true_and]

end Cheshire
